import Mathlib

/-!
Verification of the convadraw canvas-engine specification against the
repository's sources.

The repository ships the host-side TypeScript (the React store in
`useCanvasStore.ts`, the grid web worker, and the `WASMExports` interface
declaration) while the engine itself is a WASM module whose source is not
in the repository; parts of the engine behaviour are therefore modelled
from the specification text, and are marked as such in their doc comments.
All host-side definitions are translated directly from the TypeScript
sources.
-/

namespace Convadraw

/-! ## The declared WASM interface surface (from the `WASMExports` interface)

Each entry is the function name and its declared parameter count, read off
the `WASMExports` TypeScript interface. The non-function `memory` field is
not an operation and is omitted. -/

def wasmExportsDecls : List (String × Nat) :=
  [("createCanvas", 3), ("clearCanvas", 0),
   ("addObject", 6), ("moveObject", 3), ("resizeObject", 5),
   ("deleteObject", 1), ("deleteObjects", 1),
   ("beginBatchMove", 0), ("addToBatchMove", 3), ("endBatchMove", 0),
   ("beginBatchResize", 0), ("addToBatchResize", 5), ("endBatchResize", 0),
   ("getObjectCount", 0), ("getObjectIdAtIndex", 1),
   ("getObjectX", 1), ("getObjectY", 1), ("getObjectWidth", 1),
   ("getObjectHeight", 1), ("getObjectAssetId", 1), ("getObjectType", 1),
   ("objectExists", 1),
   ("pan", 2), ("zoom", 3), ("updateViewport", 0), ("getVisibleCount", 0),
   ("getVisibleObjectId", 1), ("getVisibleObjectAssetId", 1),
   ("getVisibleObjectType", 1),
   ("getTransformX", 1), ("getTransformY", 1), ("getTransformWidth", 1),
   ("getTransformHeight", 1), ("getTransformRotation", 1),
   ("undo", 0), ("redo", 0), ("canUndo", 0), ("canRedo", 0),
   ("setGridSnap", 1), ("setGridSize", 1), ("getGridSize", 0),
   ("getStateVersion", 0),
   ("getCameraX", 0), ("getCameraY", 0), ("getCameraZoom", 0),
   ("getCanvasWidth", 0), ("getCanvasHeight", 0), ("updateCanvasSize", 2)]

/-- The operations named in the spec's section 6 flat surface, with the
brace shorthand expanded literally (so `getVisible{ObjectId,AssetId,Type}(i)`
yields `getVisibleObjectId`, `getVisibleAssetId`, `getVisibleType`).
Arities for the batch `add` calls, which section 6 leaves without a
parameter list, are taken from section 4.1. -/
def specSurfaceOps : List (String × Nat) :=
  [("createCanvas", 3), ("clearCanvas", 0),
   ("addObject", 6), ("moveObject", 3), ("resizeObject", 5),
   ("deleteObject", 1), ("deleteObjects", 1),
   ("beginBatchMove", 0), ("addToBatchMove", 3), ("endBatchMove", 0),
   ("beginBatchResize", 0), ("addToBatchResize", 5), ("endBatchResize", 0),
   ("getObjectCount", 0), ("getObjectIdAtIndex", 1),
   ("getObjectX", 1), ("getObjectY", 1), ("getObjectWidth", 1),
   ("getObjectHeight", 1), ("getObjectAssetId", 1), ("getObjectType", 1),
   ("objectExists", 1),
   ("pan", 2), ("zoom", 3), ("updateViewport", 0),
   ("getVisibleObjectId", 1), ("getVisibleAssetId", 1), ("getVisibleType", 1),
   ("getTransformX", 1), ("getTransformY", 1), ("getTransformWidth", 1),
   ("getTransformHeight", 1), ("getTransformRotation", 1),
   ("undo", 0), ("redo", 0), ("canUndo", 0), ("canRedo", 0),
   ("setGridSnap", 1), ("setGridSize", 1), ("getGridSize", 0),
   ("getStateVersion", 0),
   ("getCameraX", 0), ("getCameraY", 0), ("getCameraZoom", 0),
   ("getCanvasWidth", 0), ("getCanvasHeight", 0), ("updateCanvasSize", 2)]

/-- Section 6 surface with the brace shorthand for the visible-object
accessors expanded to the names the interface actually declares
(`getVisibleObjectAssetId`, `getVisibleObjectType` keep the `Object`
infix); everything else as in `specSurfaceOps`. -/
def specSurfaceOpsAmended : List (String × Nat) :=
  specSurfaceOps.map (fun p =>
    if p.1 = "getVisibleAssetId" then ("getVisibleObjectAssetId", p.2)
    else if p.1 = "getVisibleType" then ("getVisibleObjectType", p.2)
    else p)

/-! ## The React store (`useCanvasStore.ts`)

`syncFromWasm` reads the engine only through numeric accessor calls, so the
engine side is abstracted as a record of those accessor functions. -/

structure WasmView where
  stateVersion : Nat
  objectCount : Nat
  idAt : Nat → Nat
  assetIdOf : Nat → Nat
  xOf : Nat → Int
  yOf : Nat → Int
  wOf : Nat → Int
  hOf : Nat → Int

structure CanvasImage where
  id : String
  x : Int
  y : Int
  width : Int
  height : Int
  src : String
deriving DecidableEq

structure StoreState where
  images : List CanvasImage
  stateVersion : Nat

/-- The image-building loop of `syncFromWasm`: for each index below
`getObjectCount()`, skip the slot if `getObjectIdAtIndex` is 0, skip it if
the asset registry has no src for the object's asset id, else push an
image record with id `img-<objectId>` and the object's geometry. -/
def buildImages (w : WasmView) (reg : Nat → String) : List CanvasImage :=
  (List.range w.objectCount).filterMap (fun i =>
    let oid := w.idAt i
    if oid = 0 then none
    else
      let src := reg (w.assetIdOf oid)
      if src = "" then none
      else some ⟨"img-" ++ toString oid, w.xOf oid, w.yOf oid,
                 w.wOf oid, w.hOf oid, src⟩)

/-- Source `syncFromWasm`: returns the new store state together with a flag that
is true exactly when `emitChange` (listener notification) runs. The early
return on an unchanged state version performs no store write and no
notification. -/
def syncFromWasm (w : WasmView) (reg : Nat → String) (s : StoreState) :
    StoreState × Bool :=
  if w.stateVersion = s.stateVersion then (s, false)
  else ({ images := buildImages w reg, stateVersion := w.stateVersion }, true)

/-! ## `getNumericId` (host string id → numeric id)

The source runs the unanchored JavaScript regex `/img-(\d+)/` over the id
and parses the first captured digit run, returning 0 when there is no
match. `imgDigitsAt` models one anchored match attempt at the head of the
character list; `findImg` models the regex engine's left-to-right scan. -/

def digitsToNat (ds : List Char) : Nat :=
  ds.foldl (fun n c => 10 * n + (c.toNat - 48)) 0

def imgDigitsAt : List Char → Option (List Char)
  | 'i' :: 'm' :: 'g' :: '-' :: rest =>
      let ds := rest.takeWhile Char.isDigit
      if ds = [] then none else some ds
  | _ => none

def findImg : List Char → Option Nat
  | [] => none
  | c :: rest =>
      match imgDigitsAt (c :: rest) with
      | some ds => some (digitsToNat ds)
      | none => findImg rest

def getNumericId (s : String) : Nat := (findImg s.toList).getD 0

/-- A string contains no occurrence of `img-` followed by a digit. -/
def NoImgRef (l : List Char) : Prop :=
  ∀ i < l.length, imgDigitsAt (l.drop i) = none

instance (l : List Char) : Decidable (NoImgRef l) := by
  unfold NoImgRef; infer_instance

/-- The literal reading of the claim: the whole string is `img-` followed
by a nonempty run of digits. -/
def IsImgForm (s : String) : Prop :=
  ∃ ds : List Char, ds ≠ [] ∧ (∀ c ∈ ds, c.isDigit) ∧
    s.toList = 'i' :: 'm' :: 'g' :: '-' :: ds

/-! ## The asset registry (`useCanvasStore.ts` module state)

`assetRegistry` is a `Map<number, string>` together with the counter
`nextAssetId`, initialised to 1. Only `registerAsset` and
`clearAssetRegistry` touch them. -/

structure AssetState where
  assetRegistry : List (Nat × String)
  nextAssetId : Nat

def initAssets : AssetState := ⟨[], 1⟩

/-- Source `registerAsset`: takes the current counter as the fresh id, stores the
src under it, increments the counter, returns the id. -/
def registerAsset (s : AssetState) (src : String) : Nat × AssetState :=
  (s.nextAssetId, ⟨(s.nextAssetId, src) :: s.assetRegistry, s.nextAssetId + 1⟩)

/-- Source `getAssetSrc`: the lookup `assetRegistry.get(assetId)` with an empty-string fallback. -/
def getAssetSrc (s : AssetState) (id : Nat) : String :=
  match s.assetRegistry.lookup id with
  | some v => v
  | none => ""

/-- Source `clearAssetRegistry`: empties the map and resets the counter to 1. -/
def clearAssetRegistry (_s : AssetState) : AssetState := ⟨[], 1⟩

/-- A run of consecutive `registerAsset` calls, returning the ids handed
out in order together with the final state. -/
def runRegisters : List String → AssetState → List Nat × AssetState
  | [], s => ([], s)
  | src :: rest, s =>
      let (id, s1) := registerAsset s src
      let (ids, s2) := runRegisters rest s1
      (id :: ids, s2)

/-! ## The grid worker's visual spacing adjustment (`processRender`)

The worker receives `gridSize` and `scale` as JavaScript numbers; they are
modelled as rationals. The two `while` loops are modelled with explicit
fuel; `doubleFuel`/`halveFuel` give enough fuel for the loop to reach its
exit condition (proved below), and the stability lemmas show the result no
longer changes with more fuel, which is exactly termination of the
unbounded loop. -/

/-- The loop `while (visualGridSize * scale < 15) visualGridSize *= 2`. -/
def doubleLoop : Nat → ℚ → ℚ → ℚ
  | 0, v, _ => v
  | n + 1, v, s => if v * s < 15 then doubleLoop n (2 * v) s else v

/-- The loop `while (visualGridSize * scale > 150) visualGridSize /= 2`. -/
def halveLoop : Nat → ℚ → ℚ → ℚ
  | 0, v, _ => v
  | n + 1, v, s => if 150 < v * s then halveLoop n (v / 2) s else v

def doubleFuel (g s : ℚ) : Nat := ⌈(15 : ℚ) / (g * s)⌉₊

def halveFuel (g s : ℚ) : Nat := ⌈g * s / 150⌉₊

/-- The spacing-adjustment block of `processRender`: starting from
`visualGridSize = gridSize`, double while the on-screen spacing is below
15, else halve while it is above 150. -/
def visualGridSize (gridSize scale : ℚ) : ℚ :=
  if gridSize * scale < 15 then doubleLoop (doubleFuel gridSize scale) gridSize scale
  else if 150 < gridSize * scale then halveLoop (halveFuel gridSize scale) gridSize scale
  else gridSize

/-! ## Camera pan/zoom (`ViewportTracker`)

Modelled from the spec: the engine's camera operations are not in the
repository sources; section 4.3 describes them. The camera stores a world
offset and a zoom scalar; a screen point `p` corresponds to the world
point `offset + p / zoom` (consistent with `pan` shifting the offset by
the screen delta divided by zoom). `zoom` multiplies the current zoom by
the delta, clamps to `[minZoom, maxZoom]`, and re-solves the offset so the
world point under the zoom center stays fixed. The clamp bounds are
configured constants the spec leaves unnamed; representative positive
values are used. -/

structure Camera where
  x : ℚ
  y : ℚ
  zoom : ℚ

def minZoom : ℚ := 1 / 10

def maxZoom : ℚ := 10

def clampZoom (z : ℚ) : ℚ := max minZoom (min maxZoom z)

def screenToWorldX (c : Camera) (sx : ℚ) : ℚ := c.x + sx / c.zoom

def screenToWorldY (c : Camera) (sy : ℚ) : ℚ := c.y + sy / c.zoom

/-- Modelled from the spec: `pan(dx, dy)` shifts the camera world offset
by the screen delta divided by zoom. -/
def pan (c : Camera) (dx dy : ℚ) : Camera :=
  { c with x := c.x + dx / c.zoom, y := c.y + dy / c.zoom }

/-- Modelled from the spec: `zoom(centerX, centerY, delta)` computes the
world point under the screen center, applies the clamped zoom delta, and
re-solves the offset so that world point stays under the same screen
point. -/
def zoomAt (c : Camera) (centerX centerY delta : ℚ) : Camera :=
  let wx := screenToWorldX c centerX
  let wy := screenToWorldY c centerY
  let z := clampZoom (c.zoom * delta)
  { x := wx - centerX / z, y := wy - centerY / z, zoom := z }

/-! ## The canvas engine (`ObjectTable` + `CommandHistory`)

Modelled from the spec: the engine is the WASM module, whose source is not
in the repository; sections 3, 4.1 and 4.4 describe the object table, the
command records and the undo/redo stacks. Geometry values travel over the
numeric interface; they are modelled as integers. The table is a partial
map from ids to records. -/

structure EObj where
  x : Int
  y : Int
  w : Int
  h : Int
  assetId : Int
  ty : Int
deriving DecidableEq

abbrev Table : Type := Nat → Option EObj

def emptyTable : Table := fun _ => none

def insertT (id : Nat) (o : EObj) (t : Table) : Table :=
  fun j => if j = id then some o else t j

def removeT (id : Nat) (t : Table) : Table :=
  fun j => if j = id then none else t j

def updPos (id : Nat) (p : Int × Int) (t : Table) : Table :=
  fun j => if j = id then (t j).map (fun o => { o with x := p.1, y := p.2 }) else t j

def updGeom (id : Nat) (g : Int × Int × Int × Int) (t : Table) : Table :=
  fun j =>
    if j = id then
      (t j).map (fun o => { o with x := g.1, y := g.2.1, w := g.2.2.1, h := g.2.2.2 })
    else t j

/-- A batch-move entry: id, prior position, new position. -/
abbrev BMEntry : Type := Nat × (Int × Int) × (Int × Int)

/-- A batch-resize entry: id, prior geometry, new geometry. -/
abbrev BREntry : Type := Nat × (Int × Int × Int × Int) × (Int × Int × Int × Int)

/-- Modelled from the spec: the closed set of reversible mutation records
(section 3), each carrying the prior/new values needed to invert itself. -/
inductive Command where
  | create (id : Nat) (o : EObj)
  | del (id : Nat) (o : EObj)
  | move (id : Nat) (oldP newP : Int × Int)
  | resize (id : Nat) (oldG newG : Int × Int × Int × Int)
  | batchMove (entries : List BMEntry)
  | batchResize (entries : List BREntry)
deriving DecidableEq

/-- Replaying a command's forward mutation (used by `redo`). Batch entries
are applied in recorded order. -/
def applyFwd : Command → Table → Table
  | .create id o, t => insertT id o t
  | .del id _, t => removeT id t
  | .move id _ newP, t => updPos id newP t
  | .resize id _ newG, t => updGeom id newG t
  | .batchMove es, t => es.foldl (fun t e => updPos e.1 e.2.2 t) t
  | .batchResize es, t => es.foldl (fun t e => updGeom e.1 e.2.2 t) t

/-- Applying a command's inverse (used by `undo`): `Create` deletes,
`Delete` recreates with the original id and record, `Move`/`Resize`
restore the snapshotted prior values, batches restore every entry's prior
values (in reverse recording order, so sequentially recorded entries
invert exactly). -/
def applyInv : Command → Table → Table
  | .create id _, t => removeT id t
  | .del id o, t => insertT id o t
  | .move id oldP _, t => updPos id oldP t
  | .resize id oldG _, t => updGeom id oldG t
  | .batchMove es, t => es.foldr (fun e t => updPos e.1 e.2.1 t) t
  | .batchResize es, t => es.foldr (fun e t => updGeom e.1 e.2.1 t) t

/-- The ids a command touches. -/
def cmdIds : Command → List Nat
  | .create id _ => [id]
  | .del id _ => [id]
  | .move id _ _ => [id]
  | .resize id _ _ => [id]
  | .batchMove es => es.map (·.1)
  | .batchResize es => es.map (·.1)

structure Engine where
  table : Table
  nextId : Nat
  undoStack : List Command
  redoStack : List Command
  version : Nat
  gridSize : Int
  snapOn : Bool

def initEngine : Engine :=
  { table := emptyTable, nextId := 1, undoStack := [], redoStack := [],
    version := 0, gridSize := 25, snapOn := false }

/-- Modelled from the spec: `snap` rounds a coordinate to the nearest
multiple of the grid size (section 4.5). -/
def snapCoord (g : Int) (x : Int) : Int :=
  if g ≤ 0 then x else g * ((2 * x + g) / (2 * g))

def snapPos (snapOn : Bool) (g : Int) (p : Int × Int) : Int × Int :=
  if snapOn then (snapCoord g p.1, snapCoord g p.2) else p

/-- Modelled from the spec: `addObject` rejects non-positive sizes leaving
the state unchanged (returning the 0 sentinel), else allocates the next
unused id, inserts the record, pushes a `Create` command (clearing redo)
and bumps the state version. -/
def addObjectE (e : Engine) (x y w h aid ty : Int) : Engine × Nat :=
  if w ≤ 0 ∨ h ≤ 0 then (e, 0)
  else
    let o : EObj := ⟨x, y, w, h, aid, ty⟩
    ({ e with table := insertT e.nextId o e.table, nextId := e.nextId + 1,
              undoStack := .create e.nextId o :: e.undoStack, redoStack := [],
              version := e.version + 1 }, e.nextId)

/-- Modelled from the spec: `moveObject` fails (state unchanged) on an
unknown id, else snaps the new position if enabled, updates the table,
pushes a `Move` command with the snapshotted prior position, clears redo
and bumps the version. -/
def moveObjectE (e : Engine) (id : Nat) (x y : Int) : Engine :=
  match e.table id with
  | none => e
  | some o =>
      let p := snapPos e.snapOn e.gridSize (x, y)
      { e with table := updPos id p e.table,
               undoStack := .move id (o.x, o.y) p :: e.undoStack,
               redoStack := [], version := e.version + 1 }

/-- Modelled from the spec: `resizeObject`, the geometry analogue of
`moveObject`, rejecting unknown ids and non-positive sizes. -/
def resizeObjectE (e : Engine) (id : Nat) (x y w h : Int) : Engine :=
  match e.table id with
  | none => e
  | some o =>
      if w ≤ 0 ∨ h ≤ 0 then e
      else
        let p := snapPos e.snapOn e.gridSize (x, y)
        { e with table := updGeom id (p.1, p.2, w, h) e.table,
                 undoStack := .resize id (o.x, o.y, o.w, o.h) (p.1, p.2, w, h) :: e.undoStack,
                 redoStack := [], version := e.version + 1 }

/-- Modelled from the spec: `deleteObject` fails on an unknown id, else
snapshots the full record, removes it, pushes a `Delete` command, clears
redo and bumps the version. -/
def deleteObjectE (e : Engine) (id : Nat) : Engine :=
  match e.table id with
  | none => e
  | some o =>
      { e with table := removeT id e.table,
               undoStack := .del id o :: e.undoStack,
               redoStack := [], version := e.version + 1 }

/-- Modelled from the spec: one `addToBatchMove(id, newX, newY)` step in
an open batch. It applies the (snapped) move to the table immediately and
appends a history entry holding the prior and new positions; unknown ids
are skipped. History recording is deferred to `endBatchMove`. -/
def addToBatchMoveE (snapOn : Bool) (g : Int) (t : Table)
    (acc : List BMEntry) (id : Nat) (nx ny : Int) : Table × List BMEntry :=
  match t id with
  | none => (t, acc)
  | some o =>
      let p := snapPos snapOn g (nx, ny)
      (updPos id p t, acc ++ [(id, (o.x, o.y), p)])

/-- A complete `beginBatchMove` / `addToBatchMove`* / `endBatchMove`
sequence over a list of requested moves. -/
def runBatchMove (snapOn : Bool) (g : Int) :
    List (Nat × Int × Int) → Table → List BMEntry → Table × List BMEntry
  | [], t, acc => (t, acc)
  | m :: ms, t, acc =>
      let (t1, acc1) := addToBatchMoveE snapOn g t acc m.1 m.2.1 m.2.2
      runBatchMove snapOn g ms t1 acc1

/-- Modelled from the spec: the whole batch commits as a single
`BatchMove` command and one version bump; a batch with zero applied
entries records no command. -/
def batchMoveE (e : Engine) (moves : List (Nat × Int × Int)) : Engine :=
  let (t, es) := runBatchMove e.snapOn e.gridSize moves e.table []
  if es = [] then { e with table := t }
  else
    { e with table := t, undoStack := .batchMove es :: e.undoStack,
             redoStack := [], version := e.version + 1 }

/-- One `addToBatchResize` step, the resize analogue. -/
def addToBatchResizeE (snapOn : Bool) (g : Int) (t : Table)
    (acc : List BREntry) (id : Nat) (nx ny nw nh : Int) : Table × List BREntry :=
  match t id with
  | none => (t, acc)
  | some o =>
      if nw ≤ 0 ∨ nh ≤ 0 then (t, acc)
      else
        let p := snapPos snapOn g (nx, ny)
        (updGeom id (p.1, p.2, nw, nh) t,
         acc ++ [(id, (o.x, o.y, o.w, o.h), (p.1, p.2, nw, nh))])

def runBatchResize (snapOn : Bool) (g : Int) :
    List (Nat × Int × Int × Int × Int) → Table → List BREntry → Table × List BREntry
  | [], t, acc => (t, acc)
  | r :: rs, t, acc =>
      let (t1, acc1) :=
        addToBatchResizeE snapOn g t acc r.1 r.2.1 r.2.2.1 r.2.2.2.1 r.2.2.2.2
      runBatchResize snapOn g rs t1 acc1

def batchResizeE (e : Engine) (rs : List (Nat × Int × Int × Int × Int)) : Engine :=
  let (t, es) := runBatchResize e.snapOn e.gridSize rs e.table []
  if es = [] then { e with table := t }
  else
    { e with table := t, undoStack := .batchResize es :: e.undoStack,
             redoStack := [], version := e.version + 1 }

/-- Modelled from the spec: `undo()` returns false and changes nothing if
the undo stack is empty; otherwise it pops the most recent command,
applies its inverse directly (generating no new command), pushes it onto
the redo stack, bumps the version and returns true. -/
def undoE (e : Engine) : Engine × Bool :=
  match e.undoStack with
  | [] => (e, false)
  | c :: rest =>
      ({ e with table := applyInv c e.table, undoStack := rest,
                redoStack := c :: e.redoStack, version := e.version + 1 }, true)

/-- Modelled from the spec: `redo()` is symmetric, replaying the forward
mutation. -/
def redoE (e : Engine) : Engine × Bool :=
  match e.redoStack with
  | [] => (e, false)
  | c :: rest =>
      ({ e with table := applyFwd c e.table, redoStack := rest,
                undoStack := c :: e.undoStack, version := e.version + 1 }, true)

def canUndoE (e : Engine) : Bool := !e.undoStack.isEmpty

def canRedoE (e : Engine) : Bool := !e.redoStack.isEmpty

/-- The externally triggered engine operations that generate reachable
engine states. A batch is one complete begin/add*/end sequence, as issued
by the host wrapper. -/
inductive EngOp where
  | add (x y w h aid ty : Int)
  | move (id : Nat) (x y : Int)
  | resize (id : Nat) (x y w h : Int)
  | del (id : Nat)
  | batchMove (moves : List (Nat × Int × Int))
  | batchResize (rs : List (Nat × Int × Int × Int × Int))
  | undo
  | redo
  | setSnap (b : Bool)
  | setGrid (n : Int)

def stepE (e : Engine) : EngOp → Engine
  | .add x y w h aid ty => (addObjectE e x y w h aid ty).1
  | .move id x y => moveObjectE e id x y
  | .resize id x y w h => resizeObjectE e id x y w h
  | .del id => deleteObjectE e id
  | .batchMove ms => batchMoveE e ms
  | .batchResize rs => batchResizeE e rs
  | .undo => (undoE e).1
  | .redo => (redoE e).1
  | .setSnap b => { e with snapOn := b }
  | .setGrid n => { e with gridSize := n }

def runE (ops : List EngOp) : Engine := ops.foldl stepE initEngine

/-- The geometry `(x, y, w, h)` stored for an id, when present. -/
def geomAt (e : Engine) (id : Nat) : Option (Int × Int × Int × Int) :=
  (e.table id).map (fun o => (o.x, o.y, o.w, o.h))

/-! ## The host wrappers (`useCanvasActions` in `useCanvasStore.ts`) -/

def getObjectXE (e : Engine) (id : Nat) : Int := ((e.table id).map (·.x)).getD 0

def getObjectYE (e : Engine) (id : Nat) : Int := ((e.table id).map (·.y)).getD 0

/-- The argument list the host's `batchMoveObjects` passes to
`wasm.addToBatchMove` for one entry `{objectId, x, y}`:
`(objectId, oldX, oldY, x, y)` — five arguments, of which the declared
three-parameter signature consumes only the first three. -/
def batchMoveCallArgs (e : Engine) (m : Nat × Int × Int) : List Int :=
  [Int.ofNat m.1, getObjectXE e m.1, getObjectYE e m.1, m.2.1, m.2.2]

/-- The moves the engine actually receives from `batchMoveObjects`: each
five-argument call truncated to the declared `(objectId, newX, newY)`
parameters, with `oldX`/`oldY` read from the table just before that call
(the JavaScript loop reads them immediately before each `addToBatchMove`). -/
def truncatedBatchMoves (snapOn : Bool) (g : Int) :
    List (Nat × Int × Int) → Table → List (Nat × Int × Int)
  | [], _ => []
  | m :: ms, t =>
      let ox := ((t m.1).map (·.x)).getD 0
      let oy := ((t m.1).map (·.y)).getD 0
      let t1 := (addToBatchMoveE snapOn g t [] m.1 ox oy).1
      (m.1, ox, oy) :: truncatedBatchMoves snapOn g ms t1

/-- The host's `batchMoveObjects` wrapper: empty input returns without
calling the engine; otherwise it runs a begin/add*/end batch, where each
add call carries the arguments of `batchMoveCallArgs` and the engine
consumes the first three. -/
def batchMoveObjects (e : Engine) (moves : List (Nat × Int × Int)) : Engine :=
  if moves = [] then e
  else batchMoveE e (truncatedBatchMoves e.snapOn e.gridSize moves e.table)

/-- The host's `undo` action: polls `canUndo()` and returns false without
calling the engine when it is false, else calls the engine's `undo` (and
`syncFromWasm`) and returns true. -/
def hostUndo (e : Engine) : Engine × Bool :=
  if canUndoE e then ((undoE e).1, true) else (e, false)

def hostRedo (e : Engine) : Engine × Bool :=
  if canRedoE e then ((redoE e).1, true) else (e, false)

/-! ### History invariants

`StackOK` says that undoing then redoing the commands of the undo stack,
prefix by prefix, round-trips the table; `RedoOK` is the mirror image for
the redo stack. Together with freshness of `nextId` these are preserved by
every engine operation, which is the heart of the undo/redo claims. -/

def StackOK : List Command → Table → Prop
  | [], _ => True
  | c :: rest, t => applyFwd c (applyInv c t) = t ∧ StackOK rest (applyInv c t)

def RedoOK : List Command → Table → Prop
  | [], _ => True
  | c :: rest, t => applyInv c (applyFwd c t) = t ∧ RedoOK rest (applyFwd c t)

/-- Every id a stored command touches is below the allocation counter. -/
def IdsBelow (n : Nat) (cs : List Command) : Prop :=
  ∀ c ∈ cs, ∀ id ∈ cmdIds c, id < n

/-- Ids at or above the counter are unallocated. -/
def FreshIds (e : Engine) : Prop := ∀ j, e.nextId ≤ j → e.table j = none

def EngInv (e : Engine) : Prop :=
  StackOK e.undoStack e.table ∧ RedoOK e.redoStack e.table ∧ FreshIds e ∧
  IdsBelow e.nextId e.undoStack ∧ IdsBelow e.nextId e.redoStack

/-! ## The spatial index (`SpatialIndex`)

Modelled from the spec: a region-quadrant tree (section 4.2). A node owns
a bounds AABB, a list of contained objects, and either no children (leaf)
or exactly 4 children. Insertion descends into the unique child quadrant
fully containing the object's AABB; a straddling object stays in the
parent. A full leaf splits into 4 quadrants, redistributing its objects.
`queryViewport` visits only nodes whose bounds intersect the query and,
per the exactness property of section 8, returns the visited objects whose
own bounds intersect the query. Capacity and maximum depth are configured
constants. -/

structure AABB where
  x : Int
  y : Int
  w : Int
  h : Int
deriving DecidableEq

/-- Closed-rectangle intersection test. -/
def intersects (a b : AABB) : Bool :=
  decide (a.x ≤ b.x + b.w) && decide (b.x ≤ a.x + a.w) &&
  decide (a.y ≤ b.y + b.h) && decide (b.y ≤ a.y + a.h)

/-- Test that `inner` lies fully inside `outer`. -/
def containsAABB (outer inner : AABB) : Bool :=
  decide (outer.x ≤ inner.x) && decide (inner.x + inner.w ≤ outer.x + outer.w) &&
  decide (outer.y ≤ inner.y) && decide (inner.y + inner.h ≤ outer.y + outer.h)

/-- The four equally-sized child quadrants of a node's bounds (split at
the midpoints; integer halving keeps the quadrants tiling the parent). -/
def quadrant (b : AABB) : Nat → AABB
  | 0 => ⟨b.x, b.y, b.w / 2, b.h / 2⟩
  | 1 => ⟨b.x + b.w / 2, b.y, b.w - b.w / 2, b.h / 2⟩
  | 2 => ⟨b.x, b.y + b.h / 2, b.w / 2, b.h - b.h / 2⟩
  | _ => ⟨b.x + b.w / 2, b.y + b.h / 2, b.w - b.w / 2, b.h - b.h / 2⟩

/-- Index of the unique child quadrant fully containing `a`, or 4 when `a`
straddles more than one quadrant. -/
def childIndex (b a : AABB) : Nat :=
  if containsAABB (quadrant b 0) a then 0
  else if containsAABB (quadrant b 1) a then 1
  else if containsAABB (quadrant b 2) a then 2
  else if containsAABB (quadrant b 3) a then 3
  else 4

/-- A stored object: id and bounds. -/
abbrev SObj : Type := Nat × AABB

inductive QTree where
  | leaf (bounds : AABB) (objs : List SObj)
  | node (bounds : AABB) (objs : List SObj) (c0 c1 c2 c3 : QTree)
deriving DecidableEq

def QTree.boundsOf : QTree → AABB
  | .leaf b _ => b
  | .node b _ _ _ _ _ => b

/-- All objects stored in a subtree, own node first, then the children in
fixed quadrant order. -/
def allObjs : QTree → List SObj
  | .leaf _ os => os
  | .node _ os c0 c1 c2 c3 =>
      os ++ allObjs c0 ++ allObjs c1 ++ allObjs c2 ++ allObjs c3

def nodeCapacity : Nat := 4

def maxDepth : Nat := 8

/-- Splitting a full leaf: objects fully inside one quadrant move into
that fresh child leaf; straddlers stay in the parent list. Returns the
parent list and the four children. -/
def splitLeaf (b : AABB) (os : List SObj) :
    List SObj × QTree × QTree × QTree × QTree :=
  (os.filter (fun p => childIndex b p.2 == 4),
   .leaf (quadrant b 0) (os.filter (fun p => childIndex b p.2 == 0)),
   .leaf (quadrant b 1) (os.filter (fun p => childIndex b p.2 == 1)),
   .leaf (quadrant b 2) (os.filter (fun p => childIndex b p.2 == 2)),
   .leaf (quadrant b 3) (os.filter (fun p => childIndex b p.2 == 3)))

/-- The index `insert`, with the remaining-depth budget as first argument: store at
a leaf under capacity or at maximum depth; split a full leaf and place the
object in its quadrant (retrying the insertion one level down); at an
internal node descend into the containing quadrant, keeping straddlers at
the node. -/
def insertQ : Nat → QTree → SObj → QTree
  | 0, .leaf b os, o => .leaf b (o :: os)
  | 0, .node b os c0 c1 c2 c3, o => .node b (o :: os) c0 c1 c2 c3
  | d + 1, .leaf b os, o =>
      if os.length < nodeCapacity then .leaf b (o :: os)
      else
        let (stay, c0, c1, c2, c3) := splitLeaf b os
        match childIndex b o.2 with
        | 0 => .node b stay (insertQ d c0 o) c1 c2 c3
        | 1 => .node b stay c0 (insertQ d c1 o) c2 c3
        | 2 => .node b stay c0 c1 (insertQ d c2 o) c3
        | 3 => .node b stay c0 c1 c2 (insertQ d c3 o)
        | _ => .node b (o :: stay) c0 c1 c2 c3
  | d + 1, .node b os c0 c1 c2 c3, o =>
      match childIndex b o.2 with
      | 0 => .node b os (insertQ d c0 o) c1 c2 c3
      | 1 => .node b os c0 (insertQ d c1 o) c2 c3
      | 2 => .node b os c0 c1 (insertQ d c2 o) c3
      | 3 => .node b os c0 c1 c2 (insertQ d c3 o)
      | _ => .node b (o :: os) c0 c1 c2 c3

/-- The index query `queryViewport`: visit only nodes whose bounds intersect the query,
collecting the stored objects that themselves intersect it, in fixed
quadrant order. -/
def queryViewport : QTree → AABB → List SObj
  | .leaf b os, q =>
      if intersects b q then os.filter (fun p => intersects p.2 q) else []
  | .node b os c0 c1 c2 c3, q =>
      if intersects b q then
        os.filter (fun p => intersects p.2 q) ++ queryViewport c0 q ++
          queryViewport c1 q ++ queryViewport c2 q ++ queryViewport c3 q
      else []

/-- Build the index by inserting a list of objects into an empty root. -/
def buildIndex (rootBounds : AABB) (objs : List SObj) : QTree :=
  objs.foldl (fun t o => insertQ maxDepth t o) (.leaf rootBounds [])

/-- The brute-force linear scan `queryViewport` is checked against: the
ids of all stored objects whose bounds intersect the rectangle. -/
def bruteForceQuery (objs : List SObj) (q : AABB) : List Nat :=
  (objs.filter (fun p => intersects p.2 q)).map (·.1)

/-- Well-formedness of a subtree: node bounds have non-negative extent,
every object stored at a node fits inside that node's bounds, and each
child covers exactly its quadrant. -/
def WFQ : QTree → Prop
  | .leaf b os => 0 ≤ b.w ∧ 0 ≤ b.h ∧ ∀ p ∈ os, containsAABB b p.2 = true
  | .node b os c0 c1 c2 c3 =>
      (0 ≤ b.w ∧ 0 ≤ b.h ∧ ∀ p ∈ os, containsAABB b p.2 = true) ∧
      (c0.boundsOf = quadrant b 0 ∧ c1.boundsOf = quadrant b 1 ∧
       c2.boundsOf = quadrant b 2 ∧ c3.boundsOf = quadrant b 3) ∧
      WFQ c0 ∧ WFQ c1 ∧ WFQ c2 ∧ WFQ c3

/-! ## Theorems -/

/-! ### C4: the section 6 surface against the declared interface -/

/-- C4 (counterexample): the literal brace expansion of
`getVisible{ObjectId,AssetId,Type}(i)` yields `getVisibleAssetId` and
`getVisibleType`, names the `WASMExports` interface does not declare at
any arity, so the claim fails as stated. -/
theorem C4_counterexample_visible_accessors :
    ("getVisibleAssetId", 1) ∈ specSurfaceOps ∧
    ("getVisibleType", 1) ∈ specSurfaceOps ∧
    "getVisibleAssetId" ∉ wasmExportsDecls.map Prod.fst ∧
    "getVisibleType" ∉ wasmExportsDecls.map Prod.fst := by decide

/-- C4 (amended): every operation of the section 6 surface is declared in
`WASMExports` with the same name and parameter count, once the
visible-object accessor shorthand is expanded to the declared names
`getVisibleObjectAssetId` / `getVisibleObjectType` (retaining the `Object`
infix). -/
theorem C4_surface_ops_declared :
    specSurfaceOpsAmended.all (fun p => wasmExportsDecls.contains p) = true := by
  decide

/-! ### C3: `syncFromWasm` as a frame-conditional sync -/

/-- C3: when the engine's state version equals the store's last-synced
version, `syncFromWasm` returns the store untouched and notifies no
listener; otherwise it rebuilds the images array from the engine and
adopts the engine's version (notifying). -/
theorem C3_syncFromWasm_frame (w : WasmView) (reg : Nat → String) (s : StoreState) :
    (w.stateVersion = s.stateVersion → syncFromWasm w reg s = (s, false)) ∧
    (w.stateVersion ≠ s.stateVersion →
      syncFromWasm w reg s =
        ({ images := buildImages w reg, stateVersion := w.stateVersion }, true)) := by
  constructor <;> intro h <;> simp [syncFromWasm, h]

/-- C3 witness: a concrete unchanged-version call returns the store
unchanged without notifying, and a changed-version call rebuilds. -/
theorem C3_syncFromWasm_frame_witness :
    syncFromWasm ⟨3, 0, fun _ => 0, fun _ => 0, fun _ => 0, fun _ => 0,
        fun _ => 0, fun _ => 0⟩ (fun _ => "") ⟨[], 3⟩ = (⟨[], 3⟩, false) ∧
    syncFromWasm ⟨4, 0, fun _ => 0, fun _ => 0, fun _ => 0, fun _ => 0,
        fun _ => 0, fun _ => 0⟩ (fun _ => "") ⟨[], 3⟩ = (⟨[], 4⟩, true) := by
  constructor
  · exact (C3_syncFromWasm_frame _ _ _).1 rfl
  · have h := (C3_syncFromWasm_frame
      ⟨4, 0, fun _ => 0, fun _ => 0, fun _ => 0, fun _ => 0, fun _ => 0, fun _ => 0⟩
      (fun _ => "") ⟨[], 3⟩).2 (by decide)
    simpa [buildImages] using h

/-! ### C5: empty-history undo is a silent boolean failure -/

/-- C5: with an empty undo stack the engine's `undo` returns false leaving
the state unchanged; the host wrapper returns false without touching the
engine whenever `canUndo()` is false, and invokes the engine returning
true otherwise. -/
theorem C5_undo_empty_silent (e : Engine) :
    (e.undoStack = [] → undoE e = (e, false)) ∧
    (canUndoE e = false → hostUndo e = (e, false)) ∧
    (canUndoE e = true → hostUndo e = ((undoE e).1, true)) := by
  refine ⟨fun h => ?_, fun h => ?_, fun h => ?_⟩
  · simp [undoE, h]
  · simp [hostUndo, h]
  · simp [hostUndo, h]

/-- C5 witness: the fresh engine has an empty history, its `undo` returns
false unchanged, and the host wrapper declines without touching it. -/
theorem C5_undo_empty_silent_witness :
    undoE initEngine = (initEngine, false) ∧ hostUndo initEngine = (initEngine, false) :=
  ⟨(C5_undo_empty_silent initEngine).1 rfl, (C5_undo_empty_silent initEngine).2.1 rfl⟩

/-! ### C8: zoom-to-cursor invariant -/

/-- C8: `zoom(centerX, centerY, delta)` keeps the world point under the
zoom center fixed and clamps the resulting zoom factor to
`[minZoom, maxZoom]`. -/
theorem C8_zoom_to_cursor (c : Camera) (centerX centerY delta : ℚ) :
    screenToWorldX (zoomAt c centerX centerY delta) centerX = screenToWorldX c centerX ∧
    screenToWorldY (zoomAt c centerX centerY delta) centerY = screenToWorldY c centerY ∧
    minZoom ≤ (zoomAt c centerX centerY delta).zoom ∧
    (zoomAt c centerX centerY delta).zoom ≤ maxZoom := by
  refine ⟨?_, ?_, ?_, ?_⟩
  · simp [zoomAt, screenToWorldX]
  · simp [zoomAt, screenToWorldY]
  · exact le_max_left _ _
  · exact max_le (by norm_num [minZoom, maxZoom]) (min_le_left _ _)

/-! ### C7: the id-0 sentinel at the host boundary -/

theorem noImgRef_findImg_none : ∀ l : List Char, NoImgRef l → findImg l = none := by
  intro l
  induction l with
  | nil => intro _; rfl
  | cons c rest ih =>
      intro h
      have h0 : imgDigitsAt (c :: rest) = none := by
        simpa using h 0 (by simp)
      have hrest : NoImgRef rest := by
        intro i hi
        simpa using h (i + 1) (by simpa using Nat.succ_lt_succ hi)
      simp only [findImg, h0]
      exact ih hrest

/-- C7 (amended): `syncFromWasm` excludes every index slot whose object id
is the 0 sentinel from the images it builds, and `getNumericId` maps every
string containing no occurrence of `img-` followed by a digit to the
sentinel 0 (the regex being unanchored, a string that merely contains such
an occurrence parses its digits instead). -/
theorem C7_sentinel_zero_boundary :
    (∀ (w : WasmView) (reg : Nat → String) (img : CanvasImage),
        img ∈ buildImages w reg →
        ∃ i, i < w.objectCount ∧ w.idAt i ≠ 0 ∧
          img.id = "img-" ++ toString (w.idAt i)) ∧
    (∀ s : String, NoImgRef s.toList → getNumericId s = 0) := by
  constructor
  · intro w reg img hmem
    unfold buildImages at hmem
    obtain ⟨i, hi, heq⟩ := List.mem_filterMap.mp hmem
    have hi' : i < w.objectCount := List.mem_range.mp hi
    by_cases h0 : w.idAt i = 0
    · simp [h0] at heq
    · refine ⟨i, hi', h0, ?_⟩
      by_cases hsrc : reg (w.assetIdOf (w.idAt i)) = ""
      · simp [h0, hsrc] at heq
      · simp [h0, hsrc] at heq
        exact congrArg CanvasImage.id heq.symm
  · intro s h
    unfold getNumericId
    rw [noImgRef_findImg_none s.toList h]
    rfl

/-- C7 witness: a nonzero slot builds an `img-` id, and a plain string
with no `img-<digit>` occurrence parses to 0. -/
theorem C7_sentinel_zero_boundary_witness :
    (∃ i, i < (⟨7, 1, fun _ => 5, fun _ => 1, fun _ => 0, fun _ => 0,
        fun _ => 0, fun _ => 0⟩ : WasmView).objectCount ∧
      (⟨7, 1, fun _ => 5, fun _ => 1, fun _ => 0, fun _ => 0,
        fun _ => 0, fun _ => 0⟩ : WasmView).idAt i ≠ 0 ∧
      (⟨"img-5", 0, 0, 0, 0, "u"⟩ : CanvasImage).id =
        "img-" ++ toString ((⟨7, 1, fun _ => 5, fun _ => 1, fun _ => 0,
          fun _ => 0, fun _ => 0, fun _ => 0⟩ : WasmView).idAt i)) ∧
    getNumericId "abc" = 0 := by
  constructor
  · exact C7_sentinel_zero_boundary.1
      ⟨7, 1, fun _ => 5, fun _ => 1, fun _ => 0, fun _ => 0, fun _ => 0, fun _ => 0⟩
      (fun _ => "u") ⟨"img-5", 0, 0, 0, 0, "u"⟩ (by decide)
  · exact C7_sentinel_zero_boundary.2 "abc" (by decide)

/-- C7 (counterexample): `"ximg-7"` is not of the form `img-<digits>`, yet
`getNumericId` maps it to 7, not to the sentinel 0, because the
JavaScript regex `/img-(\d+)/` is unanchored. -/
theorem C7_counterexample_unanchored :
    ¬ IsImgForm "ximg-7" ∧ getNumericId "ximg-7" = 7 := by
  constructor
  · rintro ⟨ds, _, _, habs⟩
    have hx : "ximg-7".toList = 'x' :: 'i' :: 'm' :: 'g' :: '-' :: '7' :: [] := rfl
    rw [hx] at habs
    injection habs with h1 _
    exact absurd h1 (by decide)
  · decide

/-! ### C9: the grid worker's spacing-adjustment loops -/

theorem doubleLoop_of_ge {v s : ℚ} (h : 15 ≤ v * s) : ∀ n, doubleLoop n v s = v := by
  intro n
  cases n with
  | zero => rfl
  | succ n => simp [doubleLoop, not_lt.mpr h]

theorem doubleLoop_ge (s : ℚ) :
    ∀ (n : Nat) (v : ℚ), 15 ≤ 2 ^ n * v * s → 15 ≤ doubleLoop n v s * s := by
  intro n
  induction n with
  | zero => intro v h; simpa using h
  | succ n ih =>
      intro v h
      by_cases hv : v * s < 15
      · simp only [doubleLoop, hv, if_true]
        apply ih
        calc (15 : ℚ) ≤ 2 ^ (n + 1) * v * s := h
          _ = 2 ^ n * (2 * v) * s := by ring
      · simp only [doubleLoop, hv, if_false]
        exact not_lt.mp hv

theorem doubleLoop_lt (s : ℚ) :
    ∀ (n : Nat) (v : ℚ), v * s < 30 → doubleLoop n v s * s < 30 := by
  intro n
  induction n with
  | zero => intro v h; simpa using h
  | succ n ih =>
      intro v h
      by_cases hv : v * s < 15
      · simp only [doubleLoop, hv, if_true]
        apply ih
        calc 2 * v * s = 2 * (v * s) := by ring
          _ < 2 * 15 := by linarith
          _ = 30 := by norm_num
      · simp only [doubleLoop, hv, if_false]
        exact h

theorem doubleLoop_stable (s : ℚ) :
    ∀ (n : Nat) (v : ℚ), 15 ≤ 2 ^ n * v * s →
      ∀ m, doubleLoop (n + m) v s = doubleLoop n v s := by
  intro n
  induction n with
  | zero =>
      intro v h m
      have h' : 15 ≤ v * s := by simpa using h
      rw [doubleLoop_of_ge h', doubleLoop_of_ge h']
  | succ n ih =>
      intro v h m
      by_cases hv : v * s < 15
      · have hrec : (n + 1 + m) = (n + m) + 1 := by omega
        rw [hrec]
        simp only [doubleLoop, hv, if_true]
        exact ih (2 * v) (by calc (15 : ℚ) ≤ 2 ^ (n + 1) * v * s := h
          _ = 2 ^ n * (2 * v) * s := by ring) m
      · have h' : 15 ≤ v * s := not_lt.mp hv
        rw [doubleLoop_of_ge h', doubleLoop_of_ge h']

theorem cast_le_two_pow (n : Nat) : (n : ℚ) ≤ 2 ^ n := by
  have h := Nat.lt_two_pow n
  have h' : (n : ℚ) < ((2 ^ n : Nat) : ℚ) := by exact_mod_cast h
  calc (n : ℚ) ≤ ((2 ^ n : Nat) : ℚ) := h'.le
    _ = 2 ^ n := by push_cast; ring

theorem doubleFuel_suffices {g s : ℚ} (hg : 0 < g) (hs : 0 < s) :
    15 ≤ 2 ^ doubleFuel g s * g * s := by
  have hgs : 0 < g * s := mul_pos hg hs
  have h1 : (15 : ℚ) / (g * s) ≤ (doubleFuel g s : ℚ) := Nat.le_ceil _
  have h2 : ((doubleFuel g s : Nat) : ℚ) ≤ 2 ^ doubleFuel g s :=
    cast_le_two_pow _
  have h3 : (15 : ℚ) / (g * s) ≤ 2 ^ doubleFuel g s := le_trans h1 h2
  have h4 : (15 : ℚ) ≤ 2 ^ doubleFuel g s * (g * s) := (div_le_iff₀ hgs).mp h3
  calc (15 : ℚ) ≤ 2 ^ doubleFuel g s * (g * s) := h4
    _ = 2 ^ doubleFuel g s * g * s := by ring

theorem halveLoop_of_le {v s : ℚ} (h : v * s ≤ 150) : ∀ n, halveLoop n v s = v := by
  intro n
  cases n with
  | zero => rfl
  | succ n => simp [halveLoop, not_lt.mpr h]

theorem halveLoop_le (s : ℚ) :
    ∀ (n : Nat) (v : ℚ), v * s ≤ 150 * 2 ^ n → halveLoop n v s * s ≤ 150 := by
  intro n
  induction n with
  | zero => intro v h; simpa using h
  | succ n ih =>
      intro v h
      by_cases hv : 150 < v * s
      · simp only [halveLoop, hv, if_true]
        apply ih
        calc v / 2 * s = v * s / 2 := by ring
          _ ≤ 150 * 2 ^ (n + 1) / 2 := by linarith
          _ = 150 * 2 ^ n := by ring
      · simp only [halveLoop, hv, if_false]
        exact not_lt.mp hv

theorem halveLoop_gt (s : ℚ) :
    ∀ (n : Nat) (v : ℚ), 75 < v * s → 75 < halveLoop n v s * s := by
  intro n
  induction n with
  | zero => intro v h; simpa using h
  | succ n ih =>
      intro v h
      by_cases hv : 150 < v * s
      · simp only [halveLoop, hv, if_true]
        apply ih
        calc (75 : ℚ) = 150 / 2 := by norm_num
          _ < v * s / 2 := by linarith
          _ = v / 2 * s := by ring
      · simp only [halveLoop, hv, if_false]
        exact h

theorem halveLoop_stable (s : ℚ) :
    ∀ (n : Nat) (v : ℚ), v * s ≤ 150 * 2 ^ n →
      ∀ m, halveLoop (n + m) v s = halveLoop n v s := by
  intro n
  induction n with
  | zero =>
      intro v h m
      have h' : v * s ≤ 150 := by simpa using h
      rw [halveLoop_of_le h', halveLoop_of_le h']
  | succ n ih =>
      intro v h m
      by_cases hv : 150 < v * s
      · have hrec : (n + 1 + m) = (n + m) + 1 := by omega
        rw [hrec]
        simp only [halveLoop, hv, if_true]
        refine ih (v / 2) ?_ m
        calc v / 2 * s = v * s / 2 := by ring
          _ ≤ 150 * 2 ^ (n + 1) / 2 := by linarith
          _ = 150 * 2 ^ n := by ring
      · have h' : v * s ≤ 150 := not_lt.mp hv
        rw [halveLoop_of_le h', halveLoop_of_le h']

theorem halveFuel_suffices (g s : ℚ) :
    g * s ≤ 150 * 2 ^ halveFuel g s := by
  have h1 : g * s / 150 ≤ (halveFuel g s : ℚ) := Nat.le_ceil _
  have h2 : ((halveFuel g s : Nat) : ℚ) ≤ 2 ^ halveFuel g s := cast_le_two_pow _
  have h3 : g * s / 150 ≤ 2 ^ halveFuel g s := le_trans h1 h2
  have h4 : g * s ≤ 2 ^ halveFuel g s * 150 :=
    (div_le_iff₀ (by norm_num : (0 : ℚ) < 150)).mp h3
  calc g * s ≤ 2 ^ halveFuel g s * 150 := h4
    _ = 150 * 2 ^ halveFuel g s := by ring

/-- C9: for positive grid size and scale the two spacing-adjustment loops
of `processRender` terminate (their fuelled forms are stable at the chosen
fuel), the resulting visual grid size lands in `[15, 150]` on screen, and
an input already in range is returned unchanged. -/
theorem C9_visualGridSize_adjustment (g s : ℚ) (hg : 0 < g) (hs : 0 < s) :
    (15 ≤ visualGridSize g s * s ∧ visualGridSize g s * s ≤ 150) ∧
    (15 ≤ g * s → g * s ≤ 150 → visualGridSize g s = g) ∧
    (∀ m, doubleFuel g s ≤ m → doubleLoop m g s = doubleLoop (doubleFuel g s) g s) ∧
    (∀ m, halveFuel g s ≤ m → halveLoop m g s = halveLoop (halveFuel g s) g s) := by
  refine ⟨?_, fun h15 h150 => ?_, fun m hm => ?_, fun m hm => ?_⟩
  · unfold visualGridSize
    by_cases hlo : g * s < 15
    · simp only [hlo, if_true]
      constructor
      · exact doubleLoop_ge s _ g (doubleFuel_suffices hg hs)
      · have h := doubleLoop_lt s (doubleFuel g s) g (by linarith)
        linarith
    · simp only [hlo, if_false]
      by_cases hhi : 150 < g * s
      · simp only [hhi, if_true]
        constructor
        · have h := halveLoop_gt s (halveFuel g s) g (by linarith)
          linarith
        · exact halveLoop_le s _ g (halveFuel_suffices g s)
      · simp only [hhi, if_false]
        exact ⟨not_lt.mp hlo, not_lt.mp hhi⟩
  · unfold visualGridSize
    simp [not_lt.mpr h15, not_lt.mpr h150]
  · obtain ⟨k, rfl⟩ := Nat.le.dest hm
    exact doubleLoop_stable s _ g (doubleFuel_suffices hg hs) k
  · obtain ⟨k, rfl⟩ := Nat.le.dest hm
    exact halveLoop_stable s _ g (halveFuel_suffices g s) k

/-- C9 witness: an in-range call (grid 25 at scale 1) is returned
unchanged and satisfies the screen-spacing bounds. -/
theorem C9_visualGridSize_witness :
    visualGridSize 25 1 = 25 ∧ 15 ≤ visualGridSize 25 1 * 1 := by
  have h := C9_visualGridSize_adjustment 25 1 (by decide) (by decide)
  exact ⟨h.2.1 (by norm_num) (by norm_num), h.1.1⟩

/-! ### C10: asset ids are consecutive from 1; unregistered ids read "" -/

theorem runRegisters_ids (srcs : List String) :
    ∀ s : AssetState, (runRegisters srcs s).1 = List.range' s.nextAssetId srcs.length := by
  induction srcs with
  | nil => intro s; rfl
  | cons src rest ih =>
      intro s
      simp only [runRegisters, registerAsset, List.length_cons, List.range']
      exact congrArg _ (ih _)

theorem runRegisters_lookup (srcs : List String) :
    ∀ (s : AssetState) (id : Nat), id ∉ (runRegisters srcs s).1 →
      ((runRegisters srcs s).2).assetRegistry.lookup id = s.assetRegistry.lookup id := by
  induction srcs with
  | nil => intro s id _; rfl
  | cons src rest ih =>
      intro s id hid
      simp only [runRegisters, registerAsset, List.mem_cons, not_or] at hid ⊢
      rw [ih _ id hid.2]
      have hb : (id == s.nextAssetId) = false := by simp [hid.1]
      simp [List.lookup, hb]

/-- C10: starting from the module's initial state (which
`clearAssetRegistry` recreates exactly), a run of `registerAsset` calls
returns the consecutive ids `1, 2, …, k` with no duplicates, and
`getAssetSrc` returns the empty string for every id not handed out. -/
theorem C10_registerAsset_consecutive (srcs : List String) :
    (runRegisters srcs initAssets).1 = List.range' 1 srcs.length ∧
    ((runRegisters srcs initAssets).1).Nodup ∧
    (∀ s : AssetState, clearAssetRegistry s = initAssets) ∧
    (∀ id, id ∉ (runRegisters srcs initAssets).1 →
      getAssetSrc (runRegisters srcs initAssets).2 id = "") := by
  refine ⟨runRegisters_ids srcs initAssets, ?_, fun _ => rfl, fun id hid => ?_⟩
  · rw [runRegisters_ids srcs initAssets]
    exact List.nodup_range' _ _ _ Nat.one_pos
  · unfold getAssetSrc
    rw [runRegisters_lookup srcs initAssets id hid]
    rfl

/-- C10 witness: registering two assets hands out ids `[1, 2]`, and the
never-registered id 5 reads back the empty string. -/
theorem C10_registerAsset_witness :
    (runRegisters ["a", "b"] initAssets).1 = [1, 2] ∧
    getAssetSrc (runRegisters ["a", "b"] initAssets).2 5 = "" := by
  have h := C10_registerAsset_consecutive ["a", "b"]
  exact ⟨h.1, h.2.2.2 5 (by decide)⟩

/-! ### Table algebra for the engine invariants -/

theorem updPos_updPos (id : Nat) (p q : Int × Int) (t : Table) :
    updPos id p (updPos id q t) = updPos id p t := by
  funext j
  unfold updPos
  by_cases h : j = id
  · simp only [h, if_true, if_pos]
    cases t id <;> rfl
  · simp [h]

theorem updPos_self {id : Nat} {o : EObj} {t : Table} (h : t id = some o) :
    updPos id (o.x, o.y) t = t := by
  funext j
  unfold updPos
  by_cases hj : j = id
  · subst hj
    rw [if_pos rfl, h]
    rfl
  · rw [if_neg hj]

theorem updGeom_updGeom (id : Nat) (p q : Int × Int × Int × Int) (t : Table) :
    updGeom id p (updGeom id q t) = updGeom id p t := by
  funext j
  unfold updGeom
  by_cases h : j = id
  · simp only [h, if_true, if_pos]
    cases t id <;> rfl
  · simp [h]

theorem updGeom_self {id : Nat} {o : EObj} {t : Table} (h : t id = some o) :
    updGeom id (o.x, o.y, o.w, o.h) t = t := by
  funext j
  unfold updGeom
  by_cases hj : j = id
  · subst hj
    rw [if_pos rfl, h]
    rfl
  · rw [if_neg hj]

theorem removeT_insertT {id : Nat} {t : Table} (o : EObj) (h : t id = none) :
    removeT id (insertT id o t) = t := by
  funext j
  unfold removeT insertT
  by_cases hj : j = id
  · subst hj
    rw [if_pos rfl]
    exact h.symm
  · rw [if_neg hj, if_neg hj]

theorem insertT_removeT {id : Nat} {o : EObj} {t : Table} (h : t id = some o) :
    insertT id o (removeT id t) = t := by
  funext j
  unfold insertT removeT
  by_cases hj : j = id
  · subst hj
    rw [if_pos rfl]
    exact h.symm
  · rw [if_neg hj, if_neg hj]

theorem updPos_untouched {id j : Nat} (p : Int × Int) (t : Table) (h : j ≠ id) :
    updPos id p t j = t j := by
  unfold updPos
  rw [if_neg h]

theorem updGeom_untouched {id j : Nat} (g : Int × Int × Int × Int) (t : Table)
    (h : j ≠ id) : updGeom id g t j = t j := by
  unfold updGeom
  rw [if_neg h]

theorem insertT_untouched {id j : Nat} (o : EObj) (t : Table) (h : j ≠ id) :
    insertT id o t j = t j := by
  unfold insertT
  rw [if_neg h]

theorem removeT_untouched {id j : Nat} (t : Table) (h : j ≠ id) :
    removeT id t j = t j := by
  unfold removeT
  rw [if_neg h]

theorem updPos_none_iff (id j : Nat) (p : Int × Int) (t : Table) :
    updPos id p t j = none ↔ t j = none := by
  unfold updPos
  by_cases hj : j = id
  · simp only [hj, if_pos rfl]
    cases t id <;> simp
  · rw [if_neg hj]

theorem updGeom_none_iff (id j : Nat) (g : Int × Int × Int × Int) (t : Table) :
    updGeom id g t j = none ↔ t j = none := by
  unfold updGeom
  by_cases hj : j = id
  · simp only [hj, if_pos rfl]
    cases t id <;> simp
  · rw [if_neg hj]

theorem foldlBM_untouched (es : List BMEntry) :
    ∀ (t : Table) (j : Nat), j ∉ es.map (·.1) →
      (es.foldl (fun t e => updPos e.1 e.2.2 t) t) j = t j := by
  induction es with
  | nil => intro t j _; rfl
  | cons e es ih =>
      intro t j h
      simp only [List.map_cons, List.mem_cons, not_or] at h
      rw [List.foldl_cons, ih _ j h.2]
      exact updPos_untouched _ _ h.1

theorem foldrBM_untouched (es : List BMEntry) :
    ∀ (t : Table) (j : Nat), j ∉ es.map (·.1) →
      (es.foldr (fun e t => updPos e.1 e.2.1 t) t) j = t j := by
  induction es with
  | nil => intro t j _; rfl
  | cons e es ih =>
      intro t j h
      simp only [List.map_cons, List.mem_cons, not_or] at h
      rw [List.foldr_cons, updPos_untouched _ _ h.1]
      exact ih _ j h.2

theorem foldlBR_untouched (es : List BREntry) :
    ∀ (t : Table) (j : Nat), j ∉ es.map (·.1) →
      (es.foldl (fun t e => updGeom e.1 e.2.2 t) t) j = t j := by
  induction es with
  | nil => intro t j _; rfl
  | cons e es ih =>
      intro t j h
      simp only [List.map_cons, List.mem_cons, not_or] at h
      rw [List.foldl_cons, ih _ j h.2]
      exact updGeom_untouched _ _ h.1

theorem foldrBR_untouched (es : List BREntry) :
    ∀ (t : Table) (j : Nat), j ∉ es.map (·.1) →
      (es.foldr (fun e t => updGeom e.1 e.2.1 t) t) j = t j := by
  induction es with
  | nil => intro t j _; rfl
  | cons e es ih =>
      intro t j h
      simp only [List.map_cons, List.mem_cons, not_or] at h
      rw [List.foldr_cons, updGeom_untouched _ _ h.1]
      exact ih _ j h.2

theorem applyFwd_untouched (c : Command) (t : Table) (j : Nat)
    (h : j ∉ cmdIds c) : applyFwd c t j = t j := by
  cases c with
  | create id o =>
      simp only [cmdIds, List.mem_singleton] at h
      exact insertT_untouched _ _ h
  | del id o =>
      simp only [cmdIds, List.mem_singleton] at h
      exact removeT_untouched _ h
  | move id oldP newP =>
      simp only [cmdIds, List.mem_singleton] at h
      exact updPos_untouched _ _ h
  | resize id oldG newG =>
      simp only [cmdIds, List.mem_singleton] at h
      exact updGeom_untouched _ _ h
  | batchMove es => exact foldlBM_untouched es t j h
  | batchResize es => exact foldlBR_untouched es t j h

theorem applyInv_untouched (c : Command) (t : Table) (j : Nat)
    (h : j ∉ cmdIds c) : applyInv c t j = t j := by
  cases c with
  | create id o =>
      simp only [cmdIds, List.mem_singleton] at h
      exact removeT_untouched _ h
  | del id o =>
      simp only [cmdIds, List.mem_singleton] at h
      exact insertT_untouched _ _ h
  | move id oldP newP =>
      simp only [cmdIds, List.mem_singleton] at h
      exact updPos_untouched _ _ h
  | resize id oldG newG =>
      simp only [cmdIds, List.mem_singleton] at h
      exact updGeom_untouched _ _ h
  | batchMove es => exact foldrBM_untouched es t j h
  | batchResize es => exact foldrBR_untouched es t j h

/-- The committed batch-move run: the recorded entries invert the table
changes exactly (restored in reverse order), replay them exactly (in
order), and touch only existing ids. -/
theorem runBatchMove_spec (sn : Bool) (g : Int) (ms : List (Nat × Int × Int)) :
    ∀ (t : Table) (acc : List BMEntry),
      ∃ es, (runBatchMove sn g ms t acc).2 = acc ++ es ∧
        (runBatchMove sn g ms t acc).1 =
          es.foldl (fun t e => updPos e.1 e.2.2 t) t ∧
        es.foldr (fun e t => updPos e.1 e.2.1 t) (runBatchMove sn g ms t acc).1 = t ∧
        (∀ id ∈ es.map (·.1), t id ≠ none) := by
  induction ms with
  | nil =>
      intro t acc
      exact ⟨[], by simp [runBatchMove], rfl, rfl, by simp⟩
  | cons m ms ih =>
      intro t acc
      cases hm : t m.1 with
      | none =>
          simp only [runBatchMove, addToBatchMoveE, hm]
          exact ih t acc
      | some o =>
          simp only [runBatchMove, addToBatchMoveE, hm]
          obtain ⟨es, h2, h1, hr, hids⟩ :=
            ih (updPos m.1 (snapPos sn g (m.2.1, m.2.2)) t)
               (acc ++ [(m.1, (o.x, o.y), snapPos sn g (m.2.1, m.2.2))])
          refine ⟨(m.1, (o.x, o.y), snapPos sn g (m.2.1, m.2.2)) :: es, ?_, ?_, ?_, ?_⟩
          · rw [h2, List.append_assoc]
            rfl
          · rw [List.foldl_cons]
            exact h1
          · rw [List.foldr_cons, hr, updPos_updPos]
            exact updPos_self hm
          · intro id hid
            simp only [List.map_cons, List.mem_cons] at hid
            rcases hid with hid | hid
            · simp only [hid, hm]
              exact fun hc => Option.noConfusion hc
            · intro hc
              exact hids id hid ((updPos_none_iff _ _ _ _).mpr hc)

/-- The committed batch-resize run, the geometry analogue. -/
theorem runBatchResize_spec (sn : Bool) (g : Int) (rs : List (Nat × Int × Int × Int × Int)) :
    ∀ (t : Table) (acc : List BREntry),
      ∃ es, (runBatchResize sn g rs t acc).2 = acc ++ es ∧
        (runBatchResize sn g rs t acc).1 =
          es.foldl (fun t e => updGeom e.1 e.2.2 t) t ∧
        es.foldr (fun e t => updGeom e.1 e.2.1 t) (runBatchResize sn g rs t acc).1 = t ∧
        (∀ id ∈ es.map (·.1), t id ≠ none) := by
  induction rs with
  | nil =>
      intro t acc
      exact ⟨[], by simp [runBatchResize], rfl, rfl, by simp⟩
  | cons r rs ih =>
      intro t acc
      cases hm : t r.1 with
      | none =>
          simp only [runBatchResize, addToBatchResizeE, hm]
          exact ih t acc
      | some o =>
          by_cases hsz : r.2.2.2.1 ≤ 0 ∨ r.2.2.2.2 ≤ 0
          · simp only [runBatchResize, addToBatchResizeE, hm, if_pos hsz]
            exact ih t acc
          · simp only [runBatchResize, addToBatchResizeE, hm, if_neg hsz]
            obtain ⟨es, h2, h1, hr, hids⟩ :=
              ih (updGeom r.1 ((snapPos sn g (r.2.1, r.2.2.1)).1,
                    (snapPos sn g (r.2.1, r.2.2.1)).2, r.2.2.2.1, r.2.2.2.2) t)
                 (acc ++ [(r.1, (o.x, o.y, o.w, o.h),
                    ((snapPos sn g (r.2.1, r.2.2.1)).1,
                     (snapPos sn g (r.2.1, r.2.2.1)).2, r.2.2.2.1, r.2.2.2.2))])
            refine ⟨(r.1, (o.x, o.y, o.w, o.h),
                ((snapPos sn g (r.2.1, r.2.2.1)).1,
                 (snapPos sn g (r.2.1, r.2.2.1)).2, r.2.2.2.1, r.2.2.2.2)) :: es,
                ?_, ?_, ?_, ?_⟩
            · rw [h2, List.append_assoc]
              rfl
            · rw [List.foldl_cons]
              exact h1
            · rw [List.foldr_cons, hr, updGeom_updGeom]
              exact updGeom_self hm
            · intro id hid
              simp only [List.map_cons, List.mem_cons] at hid
              rcases hid with hid | hid
              · simp only [hid, hm]
                exact fun hc => Option.noConfusion hc
              · intro hc
                exact hids id hid ((updGeom_none_iff _ _ _ _).mpr hc)

/-! ### Preservation of the engine invariants -/

theorem idsBelow_mono {n m : Nat} (h : n ≤ m) {cs : List Command}
    (hc : IdsBelow n cs) : IdsBelow m cs :=
  fun c hcs id hid => lt_of_lt_of_le (hc c hcs id hid) h

theorem lt_nextId_of_some {e : Engine} (hf : FreshIds e) {id : Nat} {o : EObj}
    (h : e.table id = some o) : id < e.nextId := by
  by_contra hle
  push_neg at hle
  rw [hf id hle] at h
  exact Option.noConfusion h

theorem engInv_init : EngInv initEngine :=
  ⟨trivial, trivial, fun _ _ => rfl,
   fun c hc => absurd hc (List.not_mem_nil c),
   fun c hc => absurd hc (List.not_mem_nil c)⟩

/-- Pushing a freshly recorded command: the common shape of every
committed mutating operation. -/
theorem engInv_push (e : Engine) (c : Command) (t' : Table) (n' : Nat)
    (hn : e.nextId ≤ n')
    (hfwd : applyFwd c (applyInv c t') = t')
    (hprev : applyInv c t' = e.table)
    (hstack : StackOK e.undoStack e.table)
    (hub : IdsBelow e.nextId e.undoStack)
    (hfreshT : ∀ j, n' ≤ j → t' j = none)
    (hids : ∀ id ∈ cmdIds c, id < n') :
    EngInv { e with
             table := t', nextId := n', undoStack := c :: e.undoStack,
             redoStack := [], version := e.version + 1 } := by
  refine ⟨⟨hfwd, ?_⟩, trivial, hfreshT, ?_, ?_⟩
  · show StackOK e.undoStack (applyInv c t')
    rw [hprev]
    exact hstack
  · intro c' hc' id hid
    rcases List.mem_cons.mp hc' with h | h
    · subst h
      exact hids id hid
    · exact lt_of_lt_of_le (hub c' h id hid) hn
  · intro c' hc'
    exact absurd hc' (List.not_mem_nil c')

theorem engInv_add (e : Engine) (x y w h aid ty : Int) (he : EngInv e) :
    EngInv (addObjectE e x y w h aid ty).1 := by
  obtain ⟨hstack, hredo, hfresh, hub, hrb⟩ := he
  by_cases hg : w ≤ 0 ∨ h ≤ 0
  · simp only [addObjectE, if_pos hg]
    exact ⟨hstack, hredo, hfresh, hub, hrb⟩
  · simp only [addObjectE, if_neg hg]
    have hrm : removeT e.nextId
        (insertT e.nextId ⟨x, y, w, h, aid, ty⟩ e.table) = e.table :=
      removeT_insertT _ (hfresh e.nextId le_rfl)
    exact engInv_push e (.create e.nextId ⟨x, y, w, h, aid, ty⟩)
      (insertT e.nextId ⟨x, y, w, h, aid, ty⟩ e.table) (e.nextId + 1)
      (Nat.le_succ _)
      (by show insertT e.nextId ⟨x, y, w, h, aid, ty⟩
            (removeT e.nextId (insertT e.nextId ⟨x, y, w, h, aid, ty⟩ e.table)) = _
          rw [hrm])
      hrm hstack hub
      (fun j hj => by
        rw [insertT_untouched _ _ (by omega)]
        exact hfresh j (by omega))
      (fun id hid => by
        have hid' : id ∈ [e.nextId] := hid
        simp only [List.mem_singleton] at hid'
        omega)

theorem engInv_move (e : Engine) (id : Nat) (x y : Int) (he : EngInv e) :
    EngInv (moveObjectE e id x y) := by
  obtain ⟨hstack, hredo, hfresh, hub, hrb⟩ := he
  cases ht : e.table id with
  | none =>
      simp only [moveObjectE, ht]
      exact ⟨hstack, hredo, hfresh, hub, hrb⟩
  | some o =>
      simp only [moveObjectE, ht]
      exact engInv_push e (.move id (o.x, o.y) (snapPos e.snapOn e.gridSize (x, y)))
        (updPos id (snapPos e.snapOn e.gridSize (x, y)) e.table) e.nextId le_rfl
        (by show updPos id (snapPos e.snapOn e.gridSize (x, y))
              (updPos id (o.x, o.y)
                (updPos id (snapPos e.snapOn e.gridSize (x, y)) e.table)) = _
            rw [updPos_updPos, updPos_updPos])
        (by show updPos id (o.x, o.y)
              (updPos id (snapPos e.snapOn e.gridSize (x, y)) e.table) = _
            rw [updPos_updPos]
            exact updPos_self ht)
        hstack hub
        (fun j hj => (updPos_none_iff _ _ _ _).mpr (hfresh j hj))
        (fun id' hid' => by
          have h2 : id' ∈ [id] := hid'
          simp only [List.mem_singleton] at h2
          subst h2
          exact lt_nextId_of_some hfresh ht)

theorem engInv_resize (e : Engine) (id : Nat) (x y w h : Int) (he : EngInv e) :
    EngInv (resizeObjectE e id x y w h) := by
  obtain ⟨hstack, hredo, hfresh, hub, hrb⟩ := he
  cases ht : e.table id with
  | none =>
      simp only [resizeObjectE, ht]
      exact ⟨hstack, hredo, hfresh, hub, hrb⟩
  | some o =>
      by_cases hsz : w ≤ 0 ∨ h ≤ 0
      · simp only [resizeObjectE, ht, if_pos hsz]
        exact ⟨hstack, hredo, hfresh, hub, hrb⟩
      · simp only [resizeObjectE, ht, if_neg hsz]
        exact engInv_push e
          (.resize id (o.x, o.y, o.w, o.h)
            ((snapPos e.snapOn e.gridSize (x, y)).1,
             (snapPos e.snapOn e.gridSize (x, y)).2, w, h))
          (updGeom id ((snapPos e.snapOn e.gridSize (x, y)).1,
             (snapPos e.snapOn e.gridSize (x, y)).2, w, h) e.table) e.nextId le_rfl
          (by show updGeom id ((snapPos e.snapOn e.gridSize (x, y)).1,
                (snapPos e.snapOn e.gridSize (x, y)).2, w, h)
                (updGeom id (o.x, o.y, o.w, o.h)
                  (updGeom id ((snapPos e.snapOn e.gridSize (x, y)).1,
                    (snapPos e.snapOn e.gridSize (x, y)).2, w, h) e.table)) = _
              rw [updGeom_updGeom, updGeom_updGeom])
          (by show updGeom id (o.x, o.y, o.w, o.h)
                (updGeom id ((snapPos e.snapOn e.gridSize (x, y)).1,
                  (snapPos e.snapOn e.gridSize (x, y)).2, w, h) e.table) = _
              rw [updGeom_updGeom]
              exact updGeom_self ht)
          hstack hub
          (fun j hj => (updGeom_none_iff _ _ _ _).mpr (hfresh j hj))
          (fun id' hid' => by
            have h2 : id' ∈ [id] := hid'
            simp only [List.mem_singleton] at h2
            subst h2
            exact lt_nextId_of_some hfresh ht)

theorem engInv_delete (e : Engine) (id : Nat) (he : EngInv e) :
    EngInv (deleteObjectE e id) := by
  obtain ⟨hstack, hredo, hfresh, hub, hrb⟩ := he
  cases ht : e.table id with
  | none =>
      simp only [deleteObjectE, ht]
      exact ⟨hstack, hredo, hfresh, hub, hrb⟩
  | some o =>
      simp only [deleteObjectE, ht]
      exact engInv_push e (.del id o) (removeT id e.table) e.nextId le_rfl
        (by show removeT id (insertT id o (removeT id e.table)) = _
            rw [insertT_removeT ht])
        (by show insertT id o (removeT id e.table) = _
            exact insertT_removeT ht)
        hstack hub
        (fun j hj => by
          rw [removeT_untouched]
          · exact hfresh j hj
          · intro hj'
            subst hj'
            rw [hfresh j hj] at ht
            exact Option.noConfusion ht)
        (fun id' hid' => by
          have h2 : id' ∈ [id] := hid'
          simp only [List.mem_singleton] at h2
          subst h2
          exact lt_nextId_of_some hfresh ht)

theorem engInv_batchMove (e : Engine) (ms : List (Nat × Int × Int)) (he : EngInv e) :
    EngInv (batchMoveE e ms) := by
  obtain ⟨hstack, hredo, hfresh, hub, hrb⟩ := he
  obtain ⟨es, h2, h1, hr, hids⟩ := runBatchMove_spec e.snapOn e.gridSize ms e.table []
  rcases hR : runBatchMove e.snapOn e.gridSize ms e.table [] with ⟨t', es'⟩
  rw [hR] at h2 h1 hr
  simp only [List.nil_append] at h2
  rw [show (t', es').1 = t' from rfl] at h1 hr
  rw [← h2] at hids
  unfold batchMoveE
  rw [hR]
  show EngInv (if es' = [] then { e with table := t' }
    else { e with
           table := t', undoStack := Command.batchMove es' :: e.undoStack,
           redoStack := [], version := e.version + 1 })
  by_cases hes : es' = []
  · rw [if_pos hes]
    have ht' : t' = e.table := by rw [h1, ← h2, hes]; rfl
    rw [ht']
    exact ⟨hstack, hredo, hfresh, hub, hrb⟩
  · rw [if_neg hes]
    rw [← h2] at h1 hr
    exact engInv_push e (.batchMove es') t' e.nextId le_rfl
      (by show List.foldl (fun t e => updPos e.1 e.2.2 t)
            (List.foldr (fun e t => updPos e.1 e.2.1 t) t' es') es' = t'
          rw [hr]
          exact h1.symm)
      hr hstack hub
      (fun j hj => by
        rw [h1, foldlBM_untouched es' e.table j
          (fun hin => hids j hin (hfresh j hj))]
        exact hfresh j hj)
      (fun id hid => by
        have hid' : id ∈ es'.map (·.1) := hid
        by_contra hle
        push_neg at hle
        exact hids id hid' (hfresh id hle))

theorem engInv_batchResize (e : Engine) (rs : List (Nat × Int × Int × Int × Int))
    (he : EngInv e) : EngInv (batchResizeE e rs) := by
  obtain ⟨hstack, hredo, hfresh, hub, hrb⟩ := he
  obtain ⟨es, h2, h1, hr, hids⟩ := runBatchResize_spec e.snapOn e.gridSize rs e.table []
  rcases hR : runBatchResize e.snapOn e.gridSize rs e.table [] with ⟨t', es'⟩
  rw [hR] at h2 h1 hr
  simp only [List.nil_append] at h2
  rw [show (t', es').1 = t' from rfl] at h1 hr
  rw [← h2] at hids
  unfold batchResizeE
  rw [hR]
  show EngInv (if es' = [] then { e with table := t' }
    else { e with
           table := t', undoStack := Command.batchResize es' :: e.undoStack,
           redoStack := [], version := e.version + 1 })
  by_cases hes : es' = []
  · rw [if_pos hes]
    have ht' : t' = e.table := by rw [h1, ← h2, hes]; rfl
    rw [ht']
    exact ⟨hstack, hredo, hfresh, hub, hrb⟩
  · rw [if_neg hes]
    rw [← h2] at h1 hr
    exact engInv_push e (.batchResize es') t' e.nextId le_rfl
      (by show List.foldl (fun t e => updGeom e.1 e.2.2 t)
            (List.foldr (fun e t => updGeom e.1 e.2.1 t) t' es') es' = t'
          rw [hr]
          exact h1.symm)
      hr hstack hub
      (fun j hj => by
        rw [h1, foldlBR_untouched es' e.table j
          (fun hin => hids j hin (hfresh j hj))]
        exact hfresh j hj)
      (fun id hid => by
        have hid' : id ∈ es'.map (·.1) := hid
        by_contra hle
        push_neg at hle
        exact hids id hid' (hfresh id hle))

theorem engInv_undo (e : Engine) (he : EngInv e) : EngInv (undoE e).1 := by
  obtain ⟨hstack, hredo, hfresh, hub, hrb⟩ := he
  cases hs : e.undoStack with
  | nil =>
      simp only [undoE, hs]
      exact ⟨hstack, hredo, hfresh, hub, hrb⟩
  | cons c rest =>
      rw [hs] at hstack hub
      obtain ⟨hc, hrest⟩ := hstack
      simp only [undoE, hs]
      show EngInv { e with
        table := applyInv c e.table, undoStack := rest,
        redoStack := c :: e.redoStack, version := e.version + 1 }
      refine ⟨hrest, ⟨?_, ?_⟩, ?_, ?_, ?_⟩
      · show applyInv c (applyFwd c (applyInv c e.table)) = applyInv c e.table
        rw [hc]
      · show RedoOK e.redoStack (applyFwd c (applyInv c e.table))
        rw [hc]
        exact hredo
      · intro j hj
        show applyInv c e.table j = none
        rw [applyInv_untouched]
        · exact hfresh j hj
        · intro hin
          have := hub c (List.mem_cons_self c rest) j hin
          have hj' : e.nextId ≤ j := hj
          omega
      · intro c' hc'
        exact hub c' (List.mem_cons_of_mem c hc')
      · intro c' hc'
        rcases List.mem_cons.mp hc' with h | h
        · subst h
          exact hub c' (List.mem_cons_self c' rest)
        · exact hrb c' h

theorem engInv_redo (e : Engine) (he : EngInv e) : EngInv (redoE e).1 := by
  obtain ⟨hstack, hredo, hfresh, hub, hrb⟩ := he
  cases hs : e.redoStack with
  | nil =>
      simp only [redoE, hs]
      exact ⟨hstack, hredo, hfresh, hub, hrb⟩
  | cons c rest =>
      rw [hs] at hredo hrb
      obtain ⟨hc, hrest⟩ := hredo
      simp only [redoE, hs]
      show EngInv { e with
        table := applyFwd c e.table,
        undoStack := c :: e.undoStack, redoStack := rest, version := e.version + 1 }
      refine ⟨⟨?_, ?_⟩, hrest, ?_, ?_, ?_⟩
      · show applyFwd c (applyInv c (applyFwd c e.table)) = applyFwd c e.table
        rw [hc]
      · show StackOK e.undoStack (applyInv c (applyFwd c e.table))
        rw [hc]
        exact hstack
      · intro j hj
        show applyFwd c e.table j = none
        rw [applyFwd_untouched]
        · exact hfresh j hj
        · intro hin
          have := hrb c (List.mem_cons_self c rest) j hin
          have hj' : e.nextId ≤ j := hj
          omega
      · intro c' hc'
        rcases List.mem_cons.mp hc' with h | h
        · subst h
          exact hrb c' (List.mem_cons_self c' rest)
        · exact hub c' h
      · intro c' hc'
        exact hrb c' (List.mem_cons_of_mem c hc')

theorem engInv_step (e : Engine) (op : EngOp) (he : EngInv e) :
    EngInv (stepE e op) := by
  cases op with
  | add x y w h aid ty => exact engInv_add e x y w h aid ty he
  | move id x y => exact engInv_move e id x y he
  | resize id x y w h => exact engInv_resize e id x y w h he
  | del id => exact engInv_delete e id he
  | batchMove ms => exact engInv_batchMove e ms he
  | batchResize rs => exact engInv_batchResize e rs he
  | undo => exact engInv_undo e he
  | redo => exact engInv_redo e he
  | setSnap b => exact he
  | setGrid n => exact he

theorem engInv_runE (ops : List EngOp) : EngInv (runE ops) := by
  suffices h : ∀ (l : List EngOp) (e : Engine), EngInv e → EngInv (l.foldl stepE e) from
    h ops initEngine engInv_init
  intro l
  induction l with
  | nil => intro e he; exact he
  | cons op l ih => intro e he; exact ih _ (engInv_step e op he)

/-! ### C2: undo-then-redo restores the pre-undo geometry -/

/-- C2: in every reachable engine state with a non-empty undo stack,
`undo()` followed by `redo()` restores every object's stored geometry
`(x, y, w, h)` to its exact pre-undo value, for every object id. -/
theorem C2_undo_redo_roundtrip (ops : List EngOp)
    (h : (runE ops).undoStack ≠ []) (id : Nat) :
    geomAt ((redoE (undoE (runE ops)).1).1) id = geomAt (runE ops) id := by
  obtain ⟨hstack, -, -, -, -⟩ := engInv_runE ops
  cases hs : (runE ops).undoStack with
  | nil => exact absurd hs h
  | cons c rest =>
      rw [hs] at hstack
      have htab : (redoE (undoE (runE ops)).1).1.table = (runE ops).table := by
        simp only [undoE, redoE]
        rw [hs]
        exact hstack.1
      unfold geomAt
      rw [htab]

/-- C2 witness: after a concrete `addObject` the undo stack is non-empty
and the undo/redo round trip preserves the geometry read for id 1. -/
theorem C2_undo_redo_roundtrip_witness :
    geomAt ((redoE (undoE (runE [EngOp.add 0 0 100 100 1 1])).1).1) 1 =
      geomAt (runE [EngOp.add 0 0 100 100 1 1]) 1 :=
  C2_undo_redo_roundtrip [EngOp.add 0 0 100 100 1 1] (by decide) 1

/-! ### C1: the host batch-move wrapper drops the new position -/

/-- C1 (code bug evaluation): with object 1 stored at `(0, 0)`, the host
wrapper's batch move to `(10, 20)` emits the five-argument call
`addToBatchMove(1, 0, 0, 10, 20)`; the interface declares three
parameters, so the declared `newX`/`newY` slots carry the old position
`(0, 0)` and the stored position stays `(0, 0)` instead of becoming
`(10, 20)`. -/
theorem C1_batchMove_drops_new_position :
    ("addToBatchMove", 3) ∈ wasmExportsDecls ∧
    batchMoveCallArgs (addObjectE initEngine 0 0 100 100 1 1).1 (1, 10, 20) =
      [1, 0, 0, 10, 20] ∧
    (batchMoveCallArgs (addObjectE initEngine 0 0 100 100 1 1).1 (1, 10, 20)).take 3 =
      [1, 0, 0] ∧
    getObjectXE (batchMoveObjects (addObjectE initEngine 0 0 100 100 1 1).1
      [(1, 10, 20)]) 1 = 0 ∧
    getObjectYE (batchMoveObjects (addObjectE initEngine 0 0 100 100 1 1).1
      [(1, 10, 20)]) 1 = 0 := by
  decide

/-! ### C6: the spatial index query against the brute-force scan -/

theorem intersects_of_contains {b a q : AABB} (h : containsAABB b a = true)
    (h2 : intersects a q = true) : intersects b q = true := by
  unfold containsAABB at h
  unfold intersects at h2 ⊢
  simp only [Bool.and_eq_true, decide_eq_true_eq] at h h2 ⊢
  omega

theorem containsAABB_trans {a b c : AABB} (h1 : containsAABB a b = true)
    (h2 : containsAABB b c = true) : containsAABB a c = true := by
  unfold containsAABB at h1 h2 ⊢
  simp only [Bool.and_eq_true, decide_eq_true_eq] at h1 h2 ⊢
  omega

theorem childIndex_le (b a : AABB) : childIndex b a ≤ 4 := by
  unfold childIndex
  split_ifs <;> omega

theorem contains_of_childIndex {b a : AABB} {i : Nat}
    (hci : childIndex b a = i) (hi : i < 4) :
    containsAABB (quadrant b i) a = true := by
  unfold childIndex at hci
  split_ifs at hci with h0 h1 h2 h3
  · subst hci; exact h0
  · subst hci; exact h1
  · subst hci; exact h2
  · subst hci; exact h3
  · subst hci; exact absurd hi (by omega)

theorem quadrant_sub {b : AABB} (hw : 0 ≤ b.w) (hh : 0 ≤ b.h) (i : Nat)
    (hi : i < 4) : containsAABB b (quadrant b i) = true := by
  interval_cases i <;>
    simp only [quadrant, containsAABB, Bool.and_eq_true, decide_eq_true_eq] <;>
    omega

theorem quadrant_nonneg {b : AABB} (hw : 0 ≤ b.w) (hh : 0 ≤ b.h) (i : Nat)
    (hi : i < 4) : 0 ≤ (quadrant b i).w ∧ 0 ≤ (quadrant b i).h := by
  interval_cases i <;> exact ⟨by simp only [quadrant]; omega, by simp only [quadrant]; omega⟩

theorem wfq_allObjs_contained :
    ∀ t : QTree, WFQ t → ∀ p ∈ allObjs t, containsAABB t.boundsOf p.2 = true := by
  intro t
  induction t with
  | leaf b os =>
      intro h p hp
      exact h.2.2 p hp
  | node b os c0 c1 c2 c3 ih0 ih1 ih2 ih3 =>
      intro h p hp
      obtain ⟨⟨hw, hh, hown⟩, ⟨hb0, hb1, hb2, hb3⟩, h0, h1, h2, h3⟩ := h
      simp only [allObjs, List.mem_append] at hp
      rcases hp with ((((hp | hp) | hp) | hp) | hp)
      · exact hown p hp
      · exact containsAABB_trans
          (by rw [← hb0]; exact hb0 ▸ quadrant_sub hw hh 0 (by omega))
          (hb0 ▸ ih0 h0 p hp)
      · exact containsAABB_trans
          (hb1 ▸ quadrant_sub hw hh 1 (by omega)) (hb1 ▸ ih1 h1 p hp)
      · exact containsAABB_trans
          (hb2 ▸ quadrant_sub hw hh 2 (by omega)) (hb2 ▸ ih2 h2 p hp)
      · exact containsAABB_trans
          (hb3 ▸ quadrant_sub hw hh 3 (by omega)) (hb3 ▸ ih3 h3 p hp)

theorem queryViewport_eq_filter :
    ∀ t : QTree, WFQ t → ∀ q : AABB,
      queryViewport t q = (allObjs t).filter (fun p => intersects p.2 q) := by
  intro t
  induction t with
  | leaf b os =>
      intro h q
      by_cases hq : intersects b q = true
      · simp only [queryViewport, allObjs, if_pos hq]
      · simp only [queryViewport, allObjs, if_neg hq]
        symm
        rw [List.filter_eq_nil_iff]
        intro p hp hint
        exact hq (intersects_of_contains (h.2.2 p hp) hint)
  | node b os c0 c1 c2 c3 ih0 ih1 ih2 ih3 =>
      intro h q
      by_cases hq : intersects b q = true
      · obtain ⟨⟨hw, hh, hown⟩, hbs, h0, h1, h2, h3⟩ := h
        simp only [queryViewport, allObjs, if_pos hq, List.filter_append]
        rw [ih0 h0, ih1 h1, ih2 h2, ih3 h3]
      · simp only [queryViewport, if_neg hq]
        symm
        rw [List.filter_eq_nil_iff]
        intro p hp hint
        exact hq (intersects_of_contains (wfq_allObjs_contained _ h p hp) hint)

theorem splitLeaf_perm (b : AABB) :
    ∀ os : List SObj,
      (os.filter (fun p => childIndex b p.2 == 4) ++
       os.filter (fun p => childIndex b p.2 == 0) ++
       os.filter (fun p => childIndex b p.2 == 1) ++
       os.filter (fun p => childIndex b p.2 == 2) ++
       os.filter (fun p => childIndex b p.2 == 3)).Perm os := by
  intro os
  induction os with
  | nil => exact List.Perm.refl _
  | cons a os ih =>
      have ha := childIndex_le b a.2
      rcases hci : childIndex b a.2 with _ | _ | _ | _ | _ | m
      · rw [List.filter_cons_of_neg (by simp [hci]),
          List.filter_cons_of_pos (by simp [hci]),
          List.filter_cons_of_neg (by simp [hci]),
          List.filter_cons_of_neg (by simp [hci]),
          List.filter_cons_of_neg (by simp [hci])]
        exact ((((List.perm_middle).append_right _).append_right _).append_right _).trans
          (ih.cons a)
      · rw [List.filter_cons_of_neg (by simp [hci]),
          List.filter_cons_of_neg (by simp [hci]),
          List.filter_cons_of_pos (by simp [hci]),
          List.filter_cons_of_neg (by simp [hci]),
          List.filter_cons_of_neg (by simp [hci])]
        exact (((List.perm_middle).append_right _).append_right _).trans (ih.cons a)
      · rw [List.filter_cons_of_neg (by simp [hci]),
          List.filter_cons_of_neg (by simp [hci]),
          List.filter_cons_of_neg (by simp [hci]),
          List.filter_cons_of_pos (by simp [hci]),
          List.filter_cons_of_neg (by simp [hci])]
        exact ((List.perm_middle).append_right _).trans (ih.cons a)
      · rw [List.filter_cons_of_neg (by simp [hci]),
          List.filter_cons_of_neg (by simp [hci]),
          List.filter_cons_of_neg (by simp [hci]),
          List.filter_cons_of_neg (by simp [hci]),
          List.filter_cons_of_pos (by simp [hci])]
        exact (List.perm_middle).trans (ih.cons a)
      · rw [List.filter_cons_of_pos (by simp [hci]),
          List.filter_cons_of_neg (by simp [hci]),
          List.filter_cons_of_neg (by simp [hci]),
          List.filter_cons_of_neg (by simp [hci]),
          List.filter_cons_of_neg (by simp [hci])]
        exact ih.cons a
      · rw [hci] at ha
        exact absurd ha (by omega)

theorem insertQ_bounds (d : Nat) (t : QTree) (o : SObj) :
    (insertQ d t o).boundsOf = t.boundsOf := by
  cases d with
  | zero => cases t <;> rfl
  | succ d =>
      cases t with
      | leaf b os =>
          by_cases hcap : os.length < nodeCapacity
          · simp only [insertQ, if_pos hcap, QTree.boundsOf]
          · rcases hci : childIndex b o.2 with _ | _ | _ | _ | _ | m <;>
              simp only [insertQ, if_neg hcap, splitLeaf, hci, QTree.boundsOf]
      | node b os c0 c1 c2 c3 =>
          rcases hci : childIndex b o.2 with _ | _ | _ | _ | _ | m <;>
            simp only [insertQ, hci, QTree.boundsOf]

theorem insertQ_perm :
    ∀ (d : Nat) (t : QTree) (o : SObj), (allObjs (insertQ d t o)).Perm (o :: allObjs t) := by
  intro d
  induction d with
  | zero =>
      intro t o
      cases t <;> exact List.Perm.refl _
  | succ d ih =>
      intro t o
      cases t with
      | leaf b os =>
          by_cases hcap : os.length < nodeCapacity
          · simp only [insertQ, if_pos hcap, allObjs]
            exact List.Perm.refl _
          · have h4 := childIndex_le b o.2
            rcases hci : childIndex b o.2 with _ | _ | _ | _ | _ | m
            · simp only [insertQ, if_neg hcap, splitLeaf, hci, allObjs]
              refine ((((ih _ o).append_left _).append_right _).append_right _).append_right _
                |>.trans ?_
              exact ((((List.perm_middle).append_right _).append_right _).append_right _).trans
                ((splitLeaf_perm b os).cons o)
            · simp only [insertQ, if_neg hcap, splitLeaf, hci, allObjs]
              refine ((((ih _ o).append_left _).append_right _).append_right _)
                |>.trans ?_
              exact (((List.perm_middle).append_right _).append_right _).trans
                ((splitLeaf_perm b os).cons o)
            · simp only [insertQ, if_neg hcap, splitLeaf, hci, allObjs]
              refine (((ih _ o).append_left _).append_right _)
                |>.trans ?_
              exact ((List.perm_middle).append_right _).trans
                ((splitLeaf_perm b os).cons o)
            · simp only [insertQ, if_neg hcap, splitLeaf, hci, allObjs]
              refine ((ih _ o).append_left _).trans ?_
              exact (List.perm_middle).trans ((splitLeaf_perm b os).cons o)
            · simp only [insertQ, if_neg hcap, splitLeaf, hci, allObjs]
              exact (splitLeaf_perm b os).cons o
            · rw [hci] at h4
              exact absurd h4 (by omega)
      | node b os c0 c1 c2 c3 =>
          have h4 := childIndex_le b o.2
          rcases hci : childIndex b o.2 with _ | _ | _ | _ | _ | m
          · simp only [insertQ, hci, allObjs]
            refine ((((ih c0 o).append_left os).append_right _).append_right _).append_right _
              |>.trans ?_
            exact (((List.perm_middle).append_right _).append_right _).append_right _
          · simp only [insertQ, hci, allObjs]
            refine ((((ih c1 o).append_left _).append_right _).append_right _)
              |>.trans ?_
            exact ((List.perm_middle).append_right _).append_right _
          · simp only [insertQ, hci, allObjs]
            refine (((ih c2 o).append_left _).append_right _)
              |>.trans ?_
            exact (List.perm_middle).append_right _
          · simp only [insertQ, hci, allObjs]
            refine ((ih c3 o).append_left _).trans ?_
            exact List.perm_middle
          · simp only [insertQ, hci, allObjs]
            exact List.Perm.refl _
          · rw [hci] at h4
            exact absurd h4 (by omega)

theorem mem_filter_childIndex {b : AABB} {os : List SObj} {k : Nat} {p : SObj}
    (hp : p ∈ os.filter (fun p => childIndex b p.2 == k)) :
    p ∈ os ∧ childIndex b p.2 = k := by
  have h := List.mem_filter.mp hp
  exact ⟨h.1, by simpa using h.2⟩

set_option maxHeartbeats 1000000 in
theorem insertQ_wf :
    ∀ (d : Nat) (t : QTree) (o : SObj), WFQ t →
      containsAABB t.boundsOf o.2 = true → WFQ (insertQ d t o) := by
  intro d
  induction d with
  | zero =>
      intro t o hwf ho
      cases t with
      | leaf b os =>
          obtain ⟨hw, hh, hos⟩ := hwf
          refine ⟨hw, hh, fun p hp => ?_⟩
          rcases List.mem_cons.mp hp with hp | hp
          · subst hp; exact ho
          · exact hos p hp
      | node b os c0 c1 c2 c3 =>
          obtain ⟨⟨hw, hh, hown⟩, hbs, h0, h1, h2, h3⟩ := hwf
          refine ⟨⟨hw, hh, fun p hp => ?_⟩, hbs, h0, h1, h2, h3⟩
          rcases List.mem_cons.mp hp with hp | hp
          · subst hp; exact ho
          · exact hown p hp
  | succ d ih =>
      intro t o hwf ho
      cases t with
      | leaf b os =>
          obtain ⟨hw, hh, hos⟩ := hwf
          by_cases hcap : os.length < nodeCapacity
          · simp only [insertQ, if_pos hcap]
            refine ⟨hw, hh, fun p hp => ?_⟩
            rcases List.mem_cons.mp hp with hp | hp
            · subst hp; exact ho
            · exact hos p hp
          · have hstay : ∀ p ∈ os.filter (fun p => childIndex b p.2 == 4),
                containsAABB b p.2 = true :=
              fun p hp => hos p (List.mem_of_mem_filter hp)
            have hchild : ∀ k, k < 4 →
                WFQ (.leaf (quadrant b k) (os.filter (fun p => childIndex b p.2 == k))) := by
              intro k hk
              refine ⟨(quadrant_nonneg hw hh k hk).1, (quadrant_nonneg hw hh k hk).2,
                fun p hp => ?_⟩
              obtain ⟨-, hpk⟩ := mem_filter_childIndex hp
              exact contains_of_childIndex hpk hk
            have h4 := childIndex_le b o.2
            rcases hci : childIndex b o.2 with _ | _ | _ | _ | _ | m
            · simp only [insertQ, if_neg hcap, splitLeaf, hci]
              refine ⟨⟨hw, hh, hstay⟩,
                ⟨(insertQ_bounds _ _ _).trans rfl, rfl, rfl, rfl⟩,
                ih _ o (hchild 0 (by omega)) ?_, hchild 1 (by omega),
                hchild 2 (by omega), hchild 3 (by omega)⟩
              exact contains_of_childIndex hci (by omega)
            · simp only [insertQ, if_neg hcap, splitLeaf, hci]
              refine ⟨⟨hw, hh, hstay⟩,
                ⟨rfl, (insertQ_bounds _ _ _).trans rfl, rfl, rfl⟩,
                hchild 0 (by omega), ih _ o (hchild 1 (by omega)) ?_,
                hchild 2 (by omega), hchild 3 (by omega)⟩
              exact contains_of_childIndex hci (by omega)
            · simp only [insertQ, if_neg hcap, splitLeaf, hci]
              refine ⟨⟨hw, hh, hstay⟩,
                ⟨rfl, rfl, (insertQ_bounds _ _ _).trans rfl, rfl⟩,
                hchild 0 (by omega), hchild 1 (by omega),
                ih _ o (hchild 2 (by omega)) ?_, hchild 3 (by omega)⟩
              exact contains_of_childIndex hci (by omega)
            · simp only [insertQ, if_neg hcap, splitLeaf, hci]
              refine ⟨⟨hw, hh, hstay⟩,
                ⟨rfl, rfl, rfl, (insertQ_bounds _ _ _).trans rfl⟩,
                hchild 0 (by omega), hchild 1 (by omega),
                hchild 2 (by omega), ih _ o (hchild 3 (by omega)) ?_⟩
              exact contains_of_childIndex hci (by omega)
            · simp only [insertQ, if_neg hcap, splitLeaf, hci]
              refine ⟨⟨hw, hh, fun p hp => ?_⟩,
                ⟨rfl, rfl, rfl, rfl⟩,
                hchild 0 (by omega), hchild 1 (by omega),
                hchild 2 (by omega), hchild 3 (by omega)⟩
              rcases List.mem_cons.mp hp with hp | hp
              · subst hp; exact ho
              · exact hstay p hp
            · rw [hci] at h4
              exact absurd h4 (by omega)
      | node b os c0 c1 c2 c3 =>
          obtain ⟨⟨hw, hh, hown⟩, ⟨hb0, hb1, hb2, hb3⟩, h0, h1, h2, h3⟩ := hwf
          have h4 := childIndex_le b o.2
          rcases hci : childIndex b o.2 with _ | _ | _ | _ | _ | m
          · simp only [insertQ, hci]
            refine ⟨⟨hw, hh, hown⟩,
              ⟨(insertQ_bounds _ _ _).trans hb0, hb1, hb2, hb3⟩,
              ih c0 o h0 ?_, h1, h2, h3⟩
            rw [hb0]
            exact contains_of_childIndex hci (by omega)
          · simp only [insertQ, hci]
            refine ⟨⟨hw, hh, hown⟩,
              ⟨hb0, (insertQ_bounds _ _ _).trans hb1, hb2, hb3⟩,
              h0, ih c1 o h1 ?_, h2, h3⟩
            rw [hb1]
            exact contains_of_childIndex hci (by omega)
          · simp only [insertQ, hci]
            refine ⟨⟨hw, hh, hown⟩,
              ⟨hb0, hb1, (insertQ_bounds _ _ _).trans hb2, hb3⟩,
              h0, h1, ih c2 o h2 ?_, h3⟩
            rw [hb2]
            exact contains_of_childIndex hci (by omega)
          · simp only [insertQ, hci]
            refine ⟨⟨hw, hh, hown⟩,
              ⟨hb0, hb1, hb2, (insertQ_bounds _ _ _).trans hb3⟩,
              h0, h1, h2, ih c3 o h3 ?_⟩
            rw [hb3]
            exact contains_of_childIndex hci (by omega)
          · simp only [insertQ, hci]
            refine ⟨⟨hw, hh, fun p hp => ?_⟩,
              ⟨hb0, hb1, hb2, hb3⟩, h0, h1, h2, h3⟩
            rcases List.mem_cons.mp hp with hp | hp
            · subst hp; exact ho
            · exact hown p hp
          · rw [hci] at h4
            exact absurd h4 (by omega)

theorem buildFold_wf :
    ∀ (objs : List SObj) (t : QTree), WFQ t →
      (∀ o ∈ objs, containsAABB t.boundsOf o.2 = true) →
      WFQ (objs.foldl (fun t o => insertQ maxDepth t o) t) ∧
      (objs.foldl (fun t o => insertQ maxDepth t o) t).boundsOf = t.boundsOf := by
  intro objs
  induction objs with
  | nil => intro t hwf _; exact ⟨hwf, rfl⟩
  | cons o objs ih =>
      intro t hwf hin
      have hwf1 : WFQ (insertQ maxDepth t o) :=
        insertQ_wf maxDepth t o hwf (hin o (List.mem_cons_self o objs))
      have hb1 : (insertQ maxDepth t o).boundsOf = t.boundsOf := insertQ_bounds _ _ _
      have hin1 : ∀ o' ∈ objs, containsAABB (insertQ maxDepth t o).boundsOf o'.2 = true := by
        intro o' ho'
        rw [hb1]
        exact hin o' (List.mem_cons_of_mem o ho')
      obtain ⟨hwf2, hb2⟩ := ih (insertQ maxDepth t o) hwf1 hin1
      exact ⟨hwf2, hb2.trans hb1⟩

theorem buildFold_perm :
    ∀ (objs : List SObj) (t : QTree),
      (allObjs (objs.foldl (fun t o => insertQ maxDepth t o) t)).Perm
        (objs ++ allObjs t) := by
  intro objs
  induction objs with
  | nil => intro t; exact List.Perm.refl _
  | cons o objs ih =>
      intro t
      refine (ih (insertQ maxDepth t o)).trans ?_
      refine ((insertQ_perm maxDepth t o).append_left objs).trans ?_
      exact List.perm_middle

/-- C6: for every object set fitting in the index's root bounds and every
query rectangle, `queryViewport` over the built index returns exactly the
ids a brute-force linear scan finds — as a permutation, with the same
membership and with no id duplicated. -/
theorem C6_queryViewport_exact (rootBounds : AABB) (objs : List SObj) (q : AABB)
    (hw : 0 ≤ rootBounds.w) (hh : 0 ≤ rootBounds.h)
    (hin : ∀ o ∈ objs, containsAABB rootBounds o.2 = true)
    (hnd : (objs.map (·.1)).Nodup) :
    ((queryViewport (buildIndex rootBounds objs) q).map (·.1)).Perm
      (bruteForceQuery objs q) ∧
    (∀ id, id ∈ (queryViewport (buildIndex rootBounds objs) q).map (·.1) ↔
      id ∈ bruteForceQuery objs q) ∧
    ((queryViewport (buildIndex rootBounds objs) q).map (·.1)).Nodup := by
  have hbase : WFQ (.leaf rootBounds ([] : List SObj)) :=
    ⟨hw, hh, fun p hp => absurd hp (List.not_mem_nil p)⟩
  obtain ⟨hwfb, -⟩ := buildFold_wf objs (.leaf rootBounds []) hbase hin
  have hq := queryViewport_eq_filter (buildIndex rootBounds objs) hwfb q
  have hperm : (allObjs (buildIndex rootBounds objs)).Perm objs := by
    unfold buildIndex
    have h := buildFold_perm objs (.leaf rootBounds [])
    simpa [allObjs] using h
  have hmain : ((queryViewport (buildIndex rootBounds objs) q).map (·.1)).Perm
      (bruteForceQuery objs q) := by
    unfold buildIndex at hq ⊢
    rw [hq]
    unfold bruteForceQuery
    exact (hperm.filter _).map _
  have hbn : (bruteForceQuery objs q).Nodup := by
    unfold bruteForceQuery
    exact List.Nodup.sublist ((List.filter_sublist _).map _) hnd
  exact ⟨hmain, fun id => hmain.mem_iff, hmain.nodup_iff.mpr hbn⟩

/-- C6 witness: a two-object index queried over a rectangle touching only
object 2 reports exactly object 2, matching the brute-force scan. -/
theorem C6_queryViewport_exact_witness :
    2 ∈ (queryViewport
      (buildIndex ⟨0, 0, 100, 100⟩ [(1, ⟨0, 0, 10, 10⟩), (2, ⟨50, 50, 10, 10⟩)])
      ⟨40, 40, 30, 30⟩).map (·.1) :=
  ((C6_queryViewport_exact ⟨0, 0, 100, 100⟩
      [(1, ⟨0, 0, 10, 10⟩), (2, ⟨50, 50, 10, 10⟩)] ⟨40, 40, 30, 30⟩
      (by decide) (by decide) (by decide) (by decide)).2.1 2).mpr (by decide)


end Convadraw
